import Mathlib

/-!
# AlderSync server engine — shallow embedding and verification

This file embeds the server-side synchronization engine of AlderSync in Lean:
the metadata index (`File` table rows), the on-disk revision store, the
transaction manager (`src/Server/transactions.py`), the file-storage layer
(`src/Server/file_storage.py`) and the HTTP route handlers for transactions
and restore (`src/Server/routes/transactions_control.py`,
`src/Server/routes/transactions_files.py`, `src/Server/routes/files.py`).

Modelling conventions:
* Timestamps are integers (microseconds UTC); `oneSecondUs` is the 1-second
  tolerance used by the reconcile comparison.
* A stored blob is abstracted by its SHA-256 hex digest and its byte size;
  `shutil.move` / `shutil.copy2` preserve the blob, and `CalculateFileHash` /
  `stat().st_size` read the two components.  Byte-for-byte equal contents
  are identified with equal `Blob` values.
* The on-disk location of a blob is keyed by `(service, logical path,
  optional revision)`: `GetFilePath` yields key `(service, path, none)` and
  `GetRevisionPath(path, N)` yields `(service, path, some N)` (the source
  encodes the revision in the filename as `stem.N.suffix`).
* SQLAlchemy sessions always succeed unless a failure is injected through
  `CommitEnv`; the `IgnorePattern` table is modelled as empty, for which
  `FilterIgnoredFiles` returns its input unchanged
  (`file_storage.py` lines 193-195), so `ListFiles` omits the filter.
* Python `None` is `Option.none`; an operation that can raise returns
  `Except PyErr _`.
-/

/-- A stored file content, abstracted by its SHA-256 hex digest and size. -/
structure Blob where
  hash : String
  size : Int
deriving DecidableEq

/-- Python exceptions that the embedded code can raise. -/
inductive PyErr where
  | typeError
  | valueError
  | fileNotFoundError
deriving DecidableEq

/-- A row of the `File` table (`src/Server/models/database/file.py`):
one revision of one `(service, path)`. -/
structure FileRow where
  path : String
  service : String
  revision : Int
  fileHash : Option String
  size : Option Int
  modifiedUtc : Option Int
  isDeleted : Bool
  userId : Option Nat
  changelistId : Option Nat
deriving DecidableEq

/-- On-disk key of a blob: service, logical relative path, and the revision
embedded in the filename (`none` for the plain un-revisioned path). -/
abbrev DiskKey := String × String × Option Int

/-- The revision store state: the `File` table, the blobs on disk, and the
`max_revisions` setting (admin-validated to lie in `[1, 100]`, default 10). -/
structure Storage where
  db : List FileRow
  disk : List (DiskKey × Blob)
  maxRevisions : Nat
deriving DecidableEq

/-- Read a blob from disk, `None` when the file does not exist. -/
def diskGet (disk : List (DiskKey × Blob)) (k : DiskKey) : Option Blob :=
  (disk.find? (fun kv => kv.1 = k)).map (·.2)

/-- Write (or overwrite) a blob on disk. -/
def diskPut (disk : List (DiskKey × Blob)) (k : DiskKey) (b : Blob) :
    List (DiskKey × Blob) :=
  (k, b) :: disk.filter (fun kv => ¬ kv.1 = k)

/-- Remove a blob from disk (`Path.unlink`). -/
def diskErase (disk : List (DiskKey × Blob)) (k : DiskKey) :
    List (DiskKey × Blob) :=
  disk.filter (fun kv => ¬ kv.1 = k)

/-- The `(path, service_type, revision)` key used by the metadata queries;
unique in the table. -/
def rowKey (r : FileRow) : String × String × Int :=
  (r.path, r.service, r.revision)

/-- `StoreFileMetadata` (`file_storage.py` 213-281): update the existing
`(path, service, revision)` row in place, else insert a new row. -/
def storeMeta : List FileRow → FileRow → List FileRow
  | [], row => [row]
  | q :: rest, row =>
    if rowKey q = rowKey row then row :: rest else q :: storeMeta rest row

/-- `GetFileMetadata` (`file_storage.py` 284-328): the row for
`(path, service, revision)`, if any. -/
def GetFileMetadata (db : List FileRow) (path service : String)
    (revision : Int) : Option FileRow :=
  db.find? (fun r => rowKey r = (path, service, revision))

/-- Insert a row into a list sorted by descending revision number. -/
def insertRevDesc (r : FileRow) : List FileRow → List FileRow
  | [] => [r]
  | x :: xs =>
    if r.revision ≥ x.revision then r :: x :: xs else x :: insertRevDesc r xs

/-- Sort rows by revision number, highest first (`ORDER BY revision DESC`). -/
def sortRevDesc : List FileRow → List FileRow
  | [] => []
  | x :: xs => insertRevDesc x (sortRevDesc xs)

/-- The rows of `(service, path)`. -/
def rowsFor (db : List FileRow) (path service : String) : List FileRow :=
  db.filter (fun r => r.path = path ∧ r.service = service)

/-- `GetAllRevisions` (`file_storage.py` 428-466): all revisions of
`(service, path)`, newest first. -/
def GetAllRevisions (db : List FileRow) (path service : String) :
    List FileRow :=
  sortRevDesc (rowsFor db path service)

/-- One step of the SQL `MAX` aggregate over revision numbers. -/
def maxStep (acc : Option Int) (r : FileRow) : Option Int :=
  match acc with
  | none => some r.revision
  | some m => some (max m r.revision)

/-- `MAX(revision)` over the rows of `(service, path)`, `None` when there
are no rows. -/
def maxRevision (db : List FileRow) (path service : String) : Option Int :=
  (rowsFor db path service).foldl maxStep none

/-- `GetNextRevisionNumber` (`file_storage.py` 469-502): `0` for the first
upload, otherwise `MAX(revision) + 1`. -/
def GetNextRevisionNumber (db : List FileRow) (path service : String) : Int :=
  match maxRevision db path service with
  | none => 0
  | some m => m + 1

/-- Delete the `(path, service, revision)` row.  The source deletes the row
found by its primary key (`file_storage.py` 615-621); under the uniqueness
of `(path, service, revision)` this removes exactly that row. -/
def deleteRow (db : List FileRow) (path service : String) (revision : Int) :
    List FileRow :=
  db.filter (fun r => ¬ rowKey r = (path, service, revision))

/-- `CleanupOldRevisions` (`file_storage.py` 576-626): among the rows of
`(service, path)` with `revision > 0`, sorted newest first, keep the first
`max_revisions` and delete the rest (blob and row). -/
def CleanupOldRevisions (st : Storage) (path service : String) : Storage :=
  let old := (GetAllRevisions st.db path service).filter (fun r => r.revision > 0)
  if old.length > st.maxRevisions then
    (old.drop st.maxRevisions).foldl
      (fun acc r =>
        { acc with
          disk := diskErase acc.disk (service, path, some r.revision)
          db := deleteRow acc.db path service r.revision })
      st
  else st

/-- `CreateRevision` (`file_storage.py` 505-573), kept by the source for the
deletion path only: archive the highest-revision row (and its blob, when
present on disk) as a fresh revision number, then run the cleanup. -/
def CreateRevision (st : Storage) (path service : String) :
    Except PyErr (Storage × Int) :=
  match (GetAllRevisions st.db path service).head? with
  | none => .error .fileNotFoundError
  | some top =>
    let newRev := GetNextRevisionNumber st.db path service
    let disk1 :=
      match diskGet st.disk (service, path, some top.revision) with
      | some b => diskPut st.disk (service, path, some newRev) b
      | none => st.disk
    let st1 : Storage :=
      { st with
        disk := disk1
        db := storeMeta st.db
          { path := path, service := service, revision := newRev
            fileHash := top.fileHash, size := top.size
            modifiedUtc := top.modifiedUtc, isDeleted := top.isDeleted
            userId := top.userId, changelistId := none } }
    .ok (CleanupOldRevisions st1 path service, newRev)

/-- `DeleteFile` (`file_storage.py` 743-807): read the **revision 0** row;
if absent return `False`; if already deleted return `True`; otherwise, when
the plain un-revisioned file exists on disk, archive it via `CreateRevision`,
and finally overwrite the revision-0 row with a tombstone
(`hash = size = NULL`, `is_deleted = TRUE`). -/
def DeleteFile (st : Storage) (path service : String) (now : Int) :
    Except PyErr (Storage × Bool) :=
  match GetFileMetadata st.db path service 0 with
  | none => .ok (st, false)
  | some md =>
    if md.isDeleted then .ok (st, true)
    else
      let step1 : Except PyErr Storage :=
        if (diskGet st.disk (service, path, none)).isSome then
          (CreateRevision st path service).map (·.1)
        else .ok st
      match step1 with
      | .error e => .error e
      | .ok st1 =>
        .ok ({ st1 with
                db := storeMeta st1.db
                  { path := path, service := service, revision := 0
                    fileHash := none, size := none, modifiedUtc := some now
                    isDeleted := true, userId := md.userId
                    changelistId := none } },
             true)

/-- `ListFiles` (`file_storage.py` 331-395): for every path of the service,
the row with the maximum revision; tombstones excluded unless
`includeDeleted`.  (Ignore patterns: empty table, filter is the identity.) -/
def ListFiles (db : List FileRow) (service : String) (includeDeleted : Bool) :
    List FileRow :=
  let rows := db.filter (fun r => r.service = service)
  let paths := (rows.map (·.path)).eraseDups
  let current := paths.filterMap
    (fun p => (sortRevDesc (rows.filter (fun r => r.path = p))).head?)
  if includeDeleted then current else current.filter (fun r => ¬ r.isDeleted)

/-! ## Reconcile planner (`CompareFilesForReconcile`, `file_storage.py` 629-740) -/

/-- The `modified_utc` field of one client inventory entry, as the route can
hand it to the planner: Python `None`, a string `fromisoformat` rejects
(raising `ValueError`), or a timestamp — a `datetime`, or a string that
parses to that instant. -/
inductive TimestampField where
  | null
  | parseFail (s : String)
  | time (t : Int)
deriving DecidableEq

/-- One entry of the client inventory sent with a Reconcile begin. -/
structure ClientMetaIn where
  modifiedUtc : TimestampField
  size : Option Int
  hash : Option String
deriving DecidableEq

/-- A client entry after the planner's normalization pass. -/
structure NormMeta where
  mtime : Option Int
  size : Option Int
  hash : Option String
deriving DecidableEq

/-- The 1-second tolerance of the modification-time comparison, in
microseconds. -/
def oneSecondUs : Nat := 1000000

/-- Normalization of one entry (`file_storage.py` 660-674): parse string
timestamps (`ValueError` on failure), make them timezone-aware, keep `None`
as `None`. -/
def normalizeMeta (m : ClientMetaIn) : Except PyErr NormMeta :=
  match m.modifiedUtc with
  | .null => .ok { mtime := none, size := m.size, hash := m.hash }
  | .parseFail _ => .error .valueError
  | .time t => .ok { mtime := some t, size := m.size, hash := m.hash }

/-- The pre-normalization loop over the whole client inventory. -/
def normalizeClient :
    List (String × ClientMetaIn) → Except PyErr (List (String × NormMeta))
  | [] => .ok []
  | (p, m) :: rest =>
    match normalizeMeta m with
    | .error e => .error e
    | .ok nm =>
      match normalizeClient rest with
      | .error e => .error e
      | .ok ns => .ok ((p, nm) :: ns)

/-- Which set a path lands in. -/
inductive ReconcileDecision where
  | pull
  | push
  | skip
deriving DecidableEq

/-- The both-sides comparison with both timestamps in hand
(`file_storage.py` 693-728): mtimes differing by more than one second —
later side wins; else unequal sizes — later mtime wins, ties to the server;
else unequal hashes — same rule; else no action. -/
def decideBoth (s c : Int) (ssize csize : Option Int)
    (shash chash : Option String) : ReconcileDecision :=
  if (s - c).natAbs > oneSecondUs then
    if s > c then .pull else .push
  else if csize ≠ ssize then
    if s ≥ c then .pull else .push
  else if chash ≠ shash then
    if s ≥ c then .pull else .push
  else .skip

/-- The comparison of one shared path.  When either side's timestamp is
`None`, the computed `time_diff` is `inf`, the `> 1` branch is taken, and
`server_mtime > client_mtime` compares a `datetime` against `None` —
a `TypeError` (`file_storage.py` 694-698). -/
def compareOne (sf : FileRow) (m : NormMeta) :
    Except PyErr ReconcileDecision :=
  match sf.modifiedUtc, m.mtime with
  | some s, some c => .ok (decideBoth s c sf.size m.size sf.fileHash m.hash)
  | _, _ => .error .typeError

/-- Look up a path in the server inventory dictionary. -/
def findServer (server : List FileRow) (p : String) : Option FileRow :=
  server.find? (fun f => f.path = p)

/-- The planner's main loop (`file_storage.py` 680-731), carrying the
`files_to_pull` / `files_to_push` accumulators. -/
def reconcileLoop (server : List FileRow) :
    List (String × NormMeta) → List String → List String →
    Except PyErr (List String × List String)
  | [], pull, push => .ok (pull, push)
  | (p, m) :: rest, pull, push =>
    match findServer server p with
    | some sf =>
      match compareOne sf m with
      | .error e => .error e
      | .ok .pull => reconcileLoop server rest (pull ++ [p]) push
      | .ok .push => reconcileLoop server rest pull (push ++ [p])
      | .ok .skip => reconcileLoop server rest pull push
    | none => reconcileLoop server rest pull (push ++ [p])

/-- `CompareFilesForReconcile` (`file_storage.py` 629-740): normalize the
client inventory, compare against the current non-tombstone server
inventory, then add the server-only paths to the pull set. -/
def CompareFilesForReconcile (st : Storage)
    (clientFiles : List (String × ClientMetaIn)) (service : String) :
    Except PyErr (List String × List String) :=
  let server := ListFiles st.db service false
  match normalizeClient clientFiles with
  | .error e => .error e
  | .ok norm =>
    match reconcileLoop server norm [] [] with
    | .error e => .error e
    | .ok (pull, push) =>
      let serverOnly :=
        (server.filter (fun f => ¬ clientFiles.any (fun c => c.1 = f.path))).map
          (·.path)
      .ok (pull ++ serverOnly, push)

/-! ## Transaction manager (`src/Server/transactions.py`) and routes -/

/-- The in-memory `Transaction` dataclass
(`src/Server/models/infrastructure/transaction.py`).  The staging
directory's contents are carried inside the record, keyed by the relative
path used at upload time; dropping the record models
`shutil.rmtree(staging_path)` together with `del _active_transactions[id]`. -/
structure Txn where
  userId : Nat
  username : String
  operationType : String
  serviceType : String
  operationId : Nat
  stagingFiles : List (String × Blob)
  filesToPull : List String
  filesToPush : List String
  uploadedFiles : List String
  deletedFiles : List String
  description : String
deriving DecidableEq

/-- The singleton `TransactionLock`
(`src/Server/models/infrastructure/transaction_lock.py`). -/
structure TransactionLock where
  userId : Nat
  username : String
  operationType : String
  lockedAtUtc : Int
  timeoutSeconds : Int
deriving DecidableEq

/-- `TransactionLock.IsExpired`: elapsed seconds since acquisition have
reached the timeout. -/
def lockExpired (l : TransactionLock) (now : Int) : Bool :=
  now - l.lockedAtUtc ≥ l.timeoutSeconds * 1000000

/-- A row of the `Operations` audit table
(`src/Server/models/database/operation.py`). -/
structure OperationRow where
  operationId : Nat
  userId : Nat
  operationType : String
  serviceType : String
  status : String
  completedAtUtc : Option Int
  filesPulled : Option Nat
  filesPushed : Option Nat
deriving DecidableEq

/-- The single-row `LastOperation` summary table. -/
structure LastOpRow where
  username : String
  operationType : String
  serviceType : String
  timestampUtc : Int
  fileCount : Nat
deriving DecidableEq

/-- The whole server state the claims touch: the active-transactions map,
the singleton lock, the revision store, and the audit tables. -/
structure Sys where
  active : List (String × Txn)
  lock : Option TransactionLock
  storage : Storage
  operations : List OperationRow
  lastOp : Option LastOpRow
  nextChangelistId : Nat
deriving DecidableEq

/-- `GetTransaction` (`transactions.py` 153-155): a plain map lookup — the
lock's state is not consulted. -/
def GetTransaction (sys : Sys) (tid : String) : Option Txn :=
  (sys.active.find? (fun kv => kv.1 = tid)).map (·.2)

/-- `GetCurrentLock` (`transactions.py` 36-49): reading the lock clears it
when expired. -/
def GetCurrentLock (sys : Sys) (now : Int) : Sys × Option TransactionLock :=
  match sys.lock with
  | none => (sys, none)
  | some l =>
    if lockExpired l now then ({ sys with lock := none }, none)
    else (sys, some l)

/-- `AcquireLock` (`transactions.py` 52-81). -/
def AcquireLock (sys : Sys) (now : Int) (userId : Nat) (username : String)
    (operationType : String) (timeoutSeconds : Int) : Sys × Bool :=
  match GetCurrentLock sys now with
  | (sys1, some _) => (sys1, false)
  | (sys1, none) =>
    ({ sys1 with
        lock := some
          { userId := userId, username := username
            operationType := operationType, lockedAtUtc := now
            timeoutSeconds := timeoutSeconds } },
     true)

/-- `ReleaseLock` (`transactions.py` 84-90): clear the singleton lock,
whoever holds it. -/
def ReleaseLock (sys : Sys) : Sys :=
  { sys with lock := none }

/-- Find an `Operations` row by id. -/
def findOperation (ops : List OperationRow) (oid : Nat) : Option OperationRow :=
  ops.find? (fun o => o.operationId = oid)

/-- Update the first `Operations` row with the given id in place. -/
def updateOperation : List OperationRow → Nat → (OperationRow → OperationRow) →
    List OperationRow
  | [], _, _ => []
  | o :: rest, oid, f =>
    if o.operationId = oid then f o :: rest
    else o :: updateOperation rest oid f

/-- `IsTransactionCancelled` (`transactions.py` 158-183): `False` whenever
the id is absent from the in-memory map; otherwise whether the transaction's
Operation row has status `cancelled_by_admin`. -/
def IsTransactionCancelled (sys : Sys) (tid : String) : Bool :=
  match GetTransaction sys tid with
  | none => false
  | some t =>
    match findOperation sys.operations t.operationId with
    | some op => op.status = "cancelled_by_admin"
    | none => false

/-- Remove a transaction from the active map. -/
def removeTxn (active : List (String × Txn)) (tid : String) :
    List (String × Txn) :=
  active.filter (fun kv => ¬ kv.1 = tid)

/-- Replace a transaction's record in the active map (the route handlers
mutate the shared in-memory object). -/
def setTxn : List (String × Txn) → String → Txn → List (String × Txn)
  | [], _, _ => []
  | kv :: rest, tid, t =>
    if kv.1 = tid then (tid, t) :: rest else kv :: setTxn rest tid t

/-- Fault injection for the commit sequence: which staged paths make
`shutil.move` raise, which make the metadata insert raise, and whether the
changelist insert fails. -/
structure CommitEnv where
  moveFail : String → Bool
  metaFail : String → Bool
  changelistFail : Bool

/-- The benign environment: no injected failures. -/
def noFail : CommitEnv :=
  { moveFail := fun _ => false, metaFail := fun _ => false
    changelistFail := false }

/-- Look up a staged file by its upload path. -/
def stagedGet (stg : List (String × Blob)) (p : String) : Option Blob :=
  (stg.find? (fun kv => kv.1 = p)).map (·.2)

/-- Stage (or overwrite) an uploaded file. -/
def stagedPut (stg : List (String × Blob)) (p : String) (b : Blob) :
    List (String × Blob) :=
  (p, b) :: stg.filter (fun kv => ¬ kv.1 = p)

/-- Unstage a file (`shutil.move` removes the source). -/
def stagedErase (stg : List (String × Blob)) (p : String) :
    List (String × Blob) :=
  stg.filter (fun kv => ¬ kv.1 = p)

/-- The per-file upload loop of `CommitTransaction` (`transactions.py`
246-285): skip staged files that are gone, move the blob to the next
revision number, then insert the metadata row.  The loop has no per-file
exception handler, so the first raise abandons the remaining files;
a raise after the move leaves the moved blob in the store. -/
def commitUploads (env : CommitEnv) (now : Int) (t : Txn)
    (changelistId : Option Nat) :
    Storage → List (String × Blob) → List String →
    Storage × List (String × Blob)
  | st, stg, [] => (st, stg)
  | st, stg, p :: rest =>
    match stagedGet stg p with
    | none => commitUploads env now t changelistId st stg rest
    | some b =>
      let next := GetNextRevisionNumber st.db p t.serviceType
      if env.moveFail p then (st, stg)
      else
        let st1 : Storage :=
          { st with disk := diskPut st.disk (t.serviceType, p, some next) b }
        let stg1 := stagedErase stg p
        if env.metaFail p then (st1, stg1)
        else
          commitUploads env now t changelistId
            { st1 with
              db := storeMeta st1.db
                { path := p, service := t.serviceType, revision := next
                  fileHash := some b.hash, size := some b.size
                  modifiedUtc := some now, isDeleted := false
                  userId := some t.userId, changelistId := changelistId } }
            stg1 rest

/-- `CommitTransaction` (`transactions.py` 186-304).  Any exception inside
the commit body is caught and only logged — "the error will be logged but
transaction will be marked as committed" — after which the staging area is
removed, the transaction is dropped from the map, and the lock is released
unconditionally; the function then returns `True`.  `False` is returned only
for an unknown transaction id. -/
def CommitTransaction (env : CommitEnv) (sys : Sys) (now : Int)
    (tid : String) : Sys × Bool :=
  match GetTransaction sys tid with
  | none => (sys, false)
  | some t =>
    let pair : Option Nat × Sys :=
      if t.uploadedFiles = [] then (none, sys)
      else if env.changelistFail then (none, sys)
      else (some sys.nextChangelistId,
            { sys with nextChangelistId := sys.nextChangelistId + 1 })
    let changelistId := pair.1
    let sys1 := pair.2
    let st1 := t.deletedFiles.foldl
      (fun st p =>
        match DeleteFile st p t.serviceType now with
        | .ok (st2, _) => st2
        | .error _ => st)
      sys1.storage
    let st2 :=
      (commitUploads env now t changelistId st1 t.stagingFiles
        t.uploadedFiles).1
    ({ sys1 with
        storage := st2
        active := removeTxn sys1.active tid
        lock := none },
     true)

/-- `RollbackTransaction` (`transactions.py` 307-334): delete the staging
area, drop the transaction, release the lock. -/
def RollbackTransaction (sys : Sys) (tid : String) : Sys × Bool :=
  match GetTransaction sys tid with
  | none => (sys, false)
  | some _ =>
    ({ sys with active := removeTxn sys.active tid, lock := none }, true)

/-- `CancelTransaction` (`transactions.py` 383-429): mark the Operation row
`cancelled_by_admin`, remove the staging area, **delete the transaction from
the active map**, and release the lock. -/
def CancelTransaction (sys : Sys) (now : Int) (tid : String) :
    Sys × Bool × String :=
  match GetTransaction sys tid with
  | none => (sys, false, "Transaction not found or already completed")
  | some t =>
    ({ sys with
        operations := updateOperation sys.operations t.operationId
          (fun o => { o with status := "cancelled_by_admin"
                             completedAtUtc := some now })
        active := removeTxn sys.active tid
        lock := none },
     true, "Operation cancelled successfully")

/-! ## Route handlers -/

/-- Outcome of a route handler: a typed response, or an `HTTPException`
with its status code and `detail` text. -/
inductive ApiResult (α : Type) where
  | ok (a : α)
  | err (status : Nat) (detail : String)
deriving DecidableEq

/-- Response body of `upload_file`. -/
structure UploadResponse where
  success : Bool
  fileHash : String
  path : String
  size : Int
deriving DecidableEq

/-- Response body of `commit_transaction`. -/
structure CommitResponse where
  success : Bool
  filesPulled : Option Nat
  filesPushed : Option Nat
  filesTotal : Nat
deriving DecidableEq

/-- `POST /transaction/{id}/upload_file`
(`routes/transactions_files.py` 28-115): 404 when the id does not resolve,
409 when the cancelled check fires, 403 for a foreign owner; otherwise the
bytes are written to `staging_path / path` with **no validation of the
`path` form field**, the path is appended to `uploaded_files`, and the
handler returns the computed hash and size. -/
def upload_file (sys : Sys) (tid : String) (path : String) (content : Blob)
    (userId : Nat) : Sys × ApiResult UploadResponse :=
  match GetTransaction sys tid with
  | none => (sys, .err 404 "Transaction not found")
  | some t =>
    if IsTransactionCancelled sys tid then
      (sys, .err 409 "Operation cancelled by administrator")
    else if ¬ t.userId = userId then
      (sys, .err 403 "Cannot upload to transaction from another user")
    else
      let t1 := { t with
        stagingFiles := stagedPut t.stagingFiles path content
        uploadedFiles := t.uploadedFiles ++ [path] }
      ({ sys with active := setTxn sys.active tid t1 },
       .ok { success := true, fileHash := content.hash, path := path
             size := content.size })

/-- Split a character list on `/`. -/
def splitSlash : List Char → List Char → List String
  | [], acc => [String.mk acc.reverse]
  | c :: cs, acc =>
    if c = '/' then String.mk acc.reverse :: splitSlash cs []
    else splitSlash cs (c :: acc)

/-- Split a path string on `/` into its non-empty components. -/
def pathComponents (p : String) : List String :=
  (splitSlash p.toList []).filter (fun s => ¬ s = "")

/-- Whether a path string is absolute (leading `/`). -/
def absolutePath (p : String) : Bool :=
  match p.toList with
  | '/' :: _ => true
  | _ => false

/-- `pathlib` join semantics for `staging_path / path`: an absolute
right-hand side replaces the base. -/
def joinUnder (base : List String) (p : String) : List String :=
  if absolutePath p then pathComponents p else base ++ pathComponents p

/-- Resolution the operating system applies when the staged file is opened:
`..` removes the previous component (staying at the root below it) and `.`
is dropped. -/
def resolveComponents (segs : List String) : List String :=
  segs.foldl
    (fun acc s =>
      if s = ".." then acc.dropLast else if s = "." then acc else acc ++ [s])
    []

/-- The filesystem location `upload_file` actually writes for the `path`
form field: `STAGING_ROOT / transaction_id / path`, resolved. -/
def uploadTarget (tid : String) (path : String) : List String :=
  resolveComponents (joinUnder ["staging", tid] path)

/-- Whether a resolved location lies inside the transaction's own staging
directory. -/
def insideStaging (tid : String) (target : List String) : Bool :=
  match target with
  | a :: b :: _ => if a = "staging" ∧ b = tid then true else false
  | _ => false

/-- `POST /transaction/{id}/commit`
(`routes/transactions_control.py` 225-326): 404 / 409 / 403 checks, then the
Operation row is set to `completed` (with Reconcile counts) and the
last-operation summary is refreshed **before** `CommitTransaction` runs;
since `CommitTransaction` returns `True` whenever the id resolved, the
handler replies success. -/
def commit_transaction (env : CommitEnv) (sys : Sys) (now : Int)
    (tid : String) (userId : Nat) (username : String) :
    Sys × ApiResult CommitResponse :=
  match GetTransaction sys tid with
  | none => (sys, .err 404 "Transaction not found")
  | some t =>
    if IsTransactionCancelled sys tid then
      (sys, .err 409 "Operation cancelled by administrator")
    else if ¬ t.userId = userId then
      (sys, .err 403 "Cannot commit transaction from another user")
    else
      let sys1 := { sys with
        operations := updateOperation sys.operations t.operationId
          (fun o =>
            let o1 := { o with status := "completed"
                               completedAtUtc := some now }
            if t.operationType = "Reconcile" then
              { o1 with filesPulled := some t.filesToPull.length
                        filesPushed := some t.filesToPush.length }
            else o1)
        lastOp := sys.lastOp.map (fun _ =>
          { username := username, operationType := t.operationType
            serviceType := t.serviceType, timestampUtc := now
            fileCount :=
              if t.operationType = "Push" then t.uploadedFiles.length
              else 0 }) }
      match CommitTransaction env sys1 now tid with
      | (sys2, true) =>
        (sys2,
         .ok { success := true
               filesPulled :=
                 if t.operationType = "Reconcile" then
                   some t.filesToPull.length
                 else none
               filesPushed :=
                 if t.operationType = "Reconcile" then
                   some t.filesToPush.length
                 else none
               filesTotal := t.uploadedFiles.length })
      | (sys2, false) => (sys2, .err 500 "Failed to commit transaction")

/-- `GET /transaction/{id}/download_file`
(`routes/transactions_files.py` 118-225): the same 404 / 409 / 403 sequence,
then the highest-revision row is looked up; 404 for a missing or tombstoned
file, otherwise the blob of the current revision is streamed. -/
def download_file_in_transaction (sys : Sys) (tid : String) (path : String)
    (userId : Nat) : ApiResult Blob :=
  match GetTransaction sys tid with
  | none => .err 404 "Transaction not found"
  | some t =>
    if IsTransactionCancelled sys tid then
      .err 409 "Operation cancelled by administrator"
    else if ¬ t.userId = userId then
      .err 403 "Cannot download file from transaction of another user"
    else
      match (sortRevDesc (rowsFor sys.storage.db path t.serviceType)).head? with
      | none => .err 404 "File not found"
      | some top =>
        if top.isDeleted then .err 404 "File has been deleted"
        else
          match diskGet sys.storage.disk
              (t.serviceType, path, some top.revision) with
          | none => .err 404 "File not found"
          | some b => .ok b

/-- `POST /files/restore_revision` (`routes/files.py` 354-529): validate,
reject restoring the current (highest) revision, archive the current blob as
revision `N = next_revision_number` carrying its recomputed hash/size and the
current row's timestamp and author, then copy the requested revision's blob
to `N + 1` with freshly computed hash/size, a now-timestamp and the invoking
user as author.  Nothing is deleted. -/
def restore_file_revision (st : Storage) (now : Int) (userId : Nat)
    (path service : String) (revision : Int) : ApiResult Storage :=
  if ¬ (service = "Contemporary" ∨ service = "Traditional") then
    .err 400 "Invalid service_type"
  else if revision < 0 then
    .err 400 "Revision number must be nonnegative"
  else
    match (sortRevDesc (rowsFor st.db path service)).head? with
    | none => .err 404 "File not found"
    | some top =>
      if revision = top.revision then
        .err 400 "Revision is already the current version"
      else if ¬ (rowsFor st.db path service).any
          (fun r => r.revision = revision) then
        .err 404 "Revision not found"
      else
        match diskGet st.disk (service, path, some revision) with
        | none => .err 500 "Revision exists in database but file is missing"
        | some rblob =>
          let archiveRev := GetNextRevisionNumber st.db path service
          match diskGet st.disk (service, path, some top.revision) with
          | none => .err 500 "Failed to archive current version"
          | some cblob =>
            let st1 : Storage :=
              { st with
                disk := diskPut st.disk (service, path, some archiveRev) cblob }
            let st2 : Storage :=
              { st1 with
                db := storeMeta st1.db
                  { path := path, service := service, revision := archiveRev
                    fileHash := some cblob.hash, size := some cblob.size
                    modifiedUtc := top.modifiedUtc, isDeleted := false
                    userId := top.userId, changelistId := none } }
            let restoreRev := GetNextRevisionNumber st2.db path service
            let st3 : Storage :=
              { st2 with
                disk := diskPut st2.disk (service, path, some restoreRev) rblob }
            let st4 : Storage :=
              { st3 with
                db := storeMeta st3.db
                  { path := path, service := service, revision := restoreRev
                    fileHash := some rblob.hash, size := some rblob.size
                    modifiedUtc := some now, isDeleted := false
                    userId := some userId, changelistId := none } }
            .ok st4

/-- Equality of route results is decidable (needed to evaluate the engine on
concrete states). -/
instance {e a : Type} [DecidableEq e] [DecidableEq a] : DecidableEq (Except e a)
  | .ok x, .ok y =>
    if h : x = y then .isTrue (by rw [h]) else .isFalse (by simp [h])
  | .ok _, .error _ => .isFalse (by simp)
  | .error _, .ok _ => .isFalse (by simp)
  | .error x, .error y =>
    if h : x = y then .isTrue (by rw [h]) else .isFalse (by simp [h])

/-! ## Concrete fixtures

A small populated server: service `Contemporary` holds `a.txt` with two
committed revisions (0 and 1, revision 1 current), user 1 (`alice`) owns an
active `Push` transaction `t1` under the lock, Operation row 1 is `active`. -/

/-- Revision 0 of `a.txt`. -/
def fxRow0 : FileRow :=
  { path := "a.txt", service := "Contemporary", revision := 0
    fileHash := some "h0", size := some 10, modifiedUtc := some 100
    isDeleted := false, userId := some 1, changelistId := none }

/-- Revision 1 of `a.txt` — the current version. -/
def fxRow1 : FileRow :=
  { fxRow0 with revision := 1, fileHash := some "h1", size := some 20
                modifiedUtc := some 200 }

/-- The blob of revision 0. -/
def fxBlob0 : Blob := { hash := "h0", size := 10 }

/-- The blob of revision 1. -/
def fxBlob1 : Blob := { hash := "h1", size := 20 }

/-- A staged upload blob. -/
def fxBlobA : Blob := { hash := "hA", size := 5 }

/-- A second staged upload blob. -/
def fxBlobB : Blob := { hash := "hB", size := 6 }

/-- The revision store with `a.txt` at revisions 0 and 1. -/
def fxStorage : Storage :=
  { db := [fxRow0, fxRow1]
    disk := [(("Contemporary", "a.txt", some 0), fxBlob0),
             (("Contemporary", "a.txt", some 1), fxBlob1)]
    maxRevisions := 10 }

/-- Alice's lock, acquired at time 0 with the default 300-second timeout. -/
def fxLock : TransactionLock :=
  { userId := 1, username := "alice", operationType := "Push"
    lockedAtUtc := 0, timeoutSeconds := 300 }

/-- Operation row 1, still `active`. -/
def fxOp : OperationRow :=
  { operationId := 1, userId := 1, operationType := "Push"
    serviceType := "Contemporary", status := "active"
    completedAtUtc := none, filesPulled := none, filesPushed := none }

/-- A transaction of alice's with `a.txt` marked for deletion. -/
def fxTxnDelete : Txn :=
  { userId := 1, username := "alice", operationType := "Push"
    serviceType := "Contemporary", operationId := 1, stagingFiles := []
    filesToPull := [], filesToPush := [], uploadedFiles := []
    deletedFiles := ["a.txt"], description := "" }

/-- A transaction of alice's with two files staged for upload. -/
def fxTxnTwoUploads : Txn :=
  { fxTxnDelete with
    stagingFiles := [("a.txt", fxBlobA), ("b.txt", fxBlobB)]
    uploadedFiles := ["a.txt", "b.txt"], deletedFiles := [] }

/-- A transaction of alice's with one file staged for upload. -/
def fxTxnOneUpload : Txn :=
  { fxTxnDelete with
    stagingFiles := [("a.txt", fxBlobA)]
    uploadedFiles := ["a.txt"], deletedFiles := [] }

/-- The server with the delete-marking transaction in flight. -/
def fxSysDelete : Sys :=
  { active := [("t1", fxTxnDelete)], lock := some fxLock
    storage := fxStorage, operations := [fxOp], lastOp := none
    nextChangelistId := 1 }

/-- The server with the two-upload transaction over an empty store. -/
def fxSysTwoUploads : Sys :=
  { fxSysDelete with
    active := [("t1", fxTxnTwoUploads)]
    storage := { db := [], disk := [], maxRevisions := 10 } }

/-- The server with the one-upload transaction and `max_revisions = 1`. -/
def fxSysTightCap : Sys :=
  { fxSysDelete with
    active := [("t1", fxTxnOneUpload)]
    storage := { fxStorage with maxRevisions := 1 } }

/-- A commit environment in which moving `b.txt` into the store raises. -/
def fxEnvMoveBFails : CommitEnv :=
  { moveFail := fun p => p == "b.txt", metaFail := fun _ => false
    changelistFail := false }

/-! ## Claim theorems -/

/-- **C1.** Committing a transaction whose observed-deleted-paths contain
`a.txt` (current revision 1) is claimed to archive the current blob and
write a tombstone at the next highest revision number, after which the
current revision is a tombstone and the path leaves the inventory.  The code
instead overwrites the **revision 0** row with the tombstone (`DeleteFile`
reads and rewrites `revision=0`, the pre-rewrite revisioning scheme),
archives nothing, and leaves revision 1 — still the maximum — untouched and
non-deleted, so `a.txt` stays in the current (non-tombstone) inventory. -/
theorem C1_deletion_leaves_current_visible :
    (commit_transaction noFail fxSysDelete 1000 "t1" 1 "alice").2 =
      .ok { success := true, filesPulled := none, filesPushed := none
            filesTotal := 0 } ∧
    GetFileMetadata
      (commit_transaction noFail fxSysDelete 1000 "t1" 1 "alice").1.storage.db
      "a.txt" "Contemporary" 0 =
      some { path := "a.txt", service := "Contemporary", revision := 0
             fileHash := none, size := none, modifiedUtc := some 1000
             isDeleted := true, userId := some 1, changelistId := none } ∧
    GetFileMetadata
      (commit_transaction noFail fxSysDelete 1000 "t1" 1 "alice").1.storage.db
      "a.txt" "Contemporary" 1 = some fxRow1 ∧
    maxRevision
      (commit_transaction noFail fxSysDelete 1000 "t1" 1 "alice").1.storage.db
      "a.txt" "Contemporary" = some 1 ∧
    (ListFiles
      (commit_transaction noFail fxSysDelete 1000 "t1" 1 "alice").1.storage.db
      "Contemporary" false).map (·.path) = ["a.txt"] := by
  refine ⟨by decide, by decide, by decide, by decide, by decide⟩

/-- **C3.** After `CancelTransaction` succeeds it has **removed** the
transaction from the active map, so every subsequent client call on the id
fails the `GetTransaction` lookup and returns 404 `Transaction not found` —
not the claimed 409 with `transaction_cancelled_by_admin`
(`IsTransactionCancelled` returns `False` for ids absent from the map, so
the 409 branch is unreachable after a completed cancel). -/
theorem C3_cancel_then_calls_return_404 :
    (CancelTransaction fxSysDelete 500 "t1").2.1 = true ∧
    findOperation (CancelTransaction fxSysDelete 500 "t1").1.operations 1 =
      some { fxOp with status := "cancelled_by_admin",
                       completedAtUtc := some 500 } ∧
    (upload_file (CancelTransaction fxSysDelete 500 "t1").1 "t1" "x.txt"
        fxBlobA 1).2 = .err 404 "Transaction not found" ∧
    (commit_transaction noFail (CancelTransaction fxSysDelete 500 "t1").1
        1000 "t1" 1 "alice").2 = .err 404 "Transaction not found" ∧
    download_file_in_transaction (CancelTransaction fxSysDelete 500 "t1").1
        "t1" "a.txt" 1 = .err 404 "Transaction not found" := by
  refine ⟨by decide, by decide, by decide, by decide, by decide⟩

/-- **C2, counterexample.** Alice commits a transaction with two staged
files and moving the second (`b.txt`) into the store raises.  The claim
requires the whole transaction to abort: `a.txt` rolled back out of the
store, a server error surfaced, Operation status `rolled_back`.  Instead the
handler replies `success`, the Operation row reads `completed` (never
`rolled_back`), `a.txt`'s revision stays committed while `b.txt` vanishes
with the staging area. -/
theorem C2_counterexample_midcommit_failure_reports_success :
    (commit_transaction fxEnvMoveBFails fxSysTwoUploads 1000 "t1" 1
        "alice").2 =
      .ok { success := true, filesPulled := none, filesPushed := none
            filesTotal := 2 } ∧
    findOperation
      (commit_transaction fxEnvMoveBFails fxSysTwoUploads 1000 "t1" 1
        "alice").1.operations 1 =
      some { fxOp with status := "completed", completedAtUtc := some 1000 } ∧
    ¬ (∃ op, findOperation
        (commit_transaction fxEnvMoveBFails fxSysTwoUploads 1000 "t1" 1
          "alice").1.operations 1 = some op ∧ op.status = "rolled_back") ∧
    GetFileMetadata
      (commit_transaction fxEnvMoveBFails fxSysTwoUploads 1000 "t1" 1
        "alice").1.storage.db "a.txt" "Contemporary" 0 =
      some { path := "a.txt", service := "Contemporary", revision := 0
             fileHash := some "hA", size := some 5, modifiedUtc := some 1000
             isDeleted := false, userId := some 1, changelistId := some 1 } ∧
    rowsFor
      (commit_transaction fxEnvMoveBFails fxSysTwoUploads 1000 "t1" 1
        "alice").1.storage.db "b.txt" "Contemporary" = [] := by
  refine ⟨by decide, by decide, ?_, by decide, by decide⟩
  rintro ⟨op, hop, hst⟩
  have h1 : op = { fxOp with status := "completed"
                             completedAtUtc := some 1000 } := by
    have := hop.symm.trans (by decide :
      findOperation
        (commit_transaction fxEnvMoveBFails fxSysTwoUploads 1000 "t1" 1
          "alice").1.operations 1 =
        some { fxOp with status := "completed"
                         completedAtUtc := some 1000 })
    exact Option.some.inj this
  rw [h1] at hst
  exact absurd hst (by decide)

/-- **C4, counterexample.** With `max_revisions = 1` and `a.txt` already at
revisions `{0, 1}`, a commit adding revision 2 leaves **three** revision
rows — the commit sequence never invokes `CleanupOldRevisions`, so the claim
that the count is at most `max_revisions` after any commit fails. -/
theorem C4_counterexample_commit_exceeds_cap :
    (commit_transaction noFail fxSysTightCap 1000 "t1" 1 "alice").2 =
      .ok { success := true, filesPulled := none, filesPushed := none
            filesTotal := 1 } ∧
    (commit_transaction noFail fxSysTightCap 1000 "t1" 1
        "alice").1.storage.maxRevisions = 1 ∧
    (rowsFor (commit_transaction noFail fxSysTightCap 1000 "t1" 1
        "alice").1.storage.db "a.txt" "Contemporary").length = 3 ∧
    ¬ (rowsFor (commit_transaction noFail fxSysTightCap 1000 "t1" 1
        "alice").1.storage.db "a.txt" "Contemporary").length ≤
      (commit_transaction noFail fxSysTightCap 1000 "t1" 1
        "alice").1.storage.maxRevisions := by
  refine ⟨by decide, by decide, by decide, by decide⟩

/-- **C5, counterexample.** Alice's lock (timeout 300 s) has expired at
`now = 301 s`, yet her transaction id still resolves: the commit call
returns success — not the claimed 404 — and an upload also succeeds, the
transaction (with its staging area) remaining in the active map. -/
theorem C5_counterexample_expired_lock_commit_succeeds :
    lockExpired fxLock (301 * 1000000) = true ∧
    (commit_transaction noFail
        { fxSysDelete with active := [("t1", fxTxnOneUpload)] }
        (301 * 1000000) "t1" 1 "alice").2 =
      .ok { success := true, filesPulled := none, filesPushed := none
            filesTotal := 1 } ∧
    ¬ (commit_transaction noFail
        { fxSysDelete with active := [("t1", fxTxnOneUpload)] }
        (301 * 1000000) "t1" 1 "alice").2 =
      .err 404 "Transaction not found" ∧
    (upload_file { fxSysDelete with active := [("t1", fxTxnOneUpload)] }
        "t1" "c.txt" fxBlobB 1).2 =
      .ok { success := true, fileHash := "hB", path := "c.txt", size := 6 } ∧
    GetTransaction
      (upload_file { fxSysDelete with active := [("t1", fxTxnOneUpload)] }
        "t1" "c.txt" fxBlobB 1).1 "t1" =
      some { fxTxnOneUpload with
              stagingFiles := [("c.txt", fxBlobB), ("a.txt", fxBlobA)]
              uploadedFiles := ["a.txt", "c.txt"] } := by
  refine ⟨by decide, by decide, by decide, by decide, by decide⟩

/-- **C8, counterexample.** A client inventory whose only entry has a null
`modified_utc` for a path (`a.txt`) that exists on the server makes the
planner raise a `TypeError` (`datetime > None`) instead of returning a
result, refuting the claim that such inventories are handled by deferring
to size and hash. -/
theorem C8_counterexample_null_mtime_raises :
    CompareFilesForReconcile fxStorage
      [("a.txt", { modifiedUtc := .null, size := some 1, hash := some "h" })]
      "Contemporary" = .error .typeError ∧
    ¬ (∃ r, CompareFilesForReconcile fxStorage
        [("a.txt", { modifiedUtc := .null, size := some 1, hash := some "h" })]
        "Contemporary" = .ok r) := by
  refine ⟨by decide, ?_⟩
  rintro ⟨r, hr⟩
  have h := hr.symm.trans (by decide :
    CompareFilesForReconcile fxStorage
      [("a.txt", { modifiedUtc := .null, size := some 1, hash := some "h" })]
      "Contemporary" = .error .typeError)
  exact absurd h (by simp)

/-- **C9, counterexample.** `upload_file` accepts the path
`../../secret.txt` without any validation — no 400 is returned — and the
staged write `staging/t1/../../secret.txt` resolves to `secret.txt`,
outside the transaction's staging directory. -/
theorem C9_counterexample_traversal_accepted :
    (upload_file fxSysDelete "t1" "../../secret.txt" fxBlobA 1).2 =
      .ok { success := true, fileHash := "hA", path := "../../secret.txt"
            size := 5 } ∧
    (∀ d, ¬ (upload_file fxSysDelete "t1" "../../secret.txt" fxBlobA 1).2 =
      .err 400 d) ∧
    uploadTarget "t1" "../../secret.txt" = ["secret.txt"] ∧
    insideStaging "t1" (uploadTarget "t1" "../../secret.txt") = false := by
  refine ⟨by decide, ?_, by decide, by decide⟩
  intro d h
  have h2 := h.symm.trans (by decide :
    (upload_file fxSysDelete "t1" "../../secret.txt" fxBlobA 1).2 =
      .ok { success := true, fileHash := "hA", path := "../../secret.txt"
            size := 5 })
  exact absurd h2 (by simp)

/-! ## Map and table lemmas -/

/-- A removed transaction id no longer resolves. -/
theorem find?_removeTxn (a : List (String × Txn)) (tid : String) :
    (removeTxn a tid).find? (fun kv => kv.1 = tid) = none := by
  rw [List.find?_eq_none]
  intro kv hkv
  have := List.of_mem_filter hkv
  simpa using this

/-- Replacing a present transaction makes the lookup return the new value. -/
theorem find?_setTxn (a : List (String × Txn)) (tid : String) (t1 : Txn)
    (h : (a.find? (fun kv => kv.1 = tid)).isSome) :
    (setTxn a tid t1).find? (fun kv => kv.1 = tid) = some (tid, t1) := by
  induction a with
  | nil => simp [List.find?] at h
  | cons kv rest ih =>
    by_cases hk : kv.1 = tid
    · simp [setTxn, hk, List.find?]
    · rw [List.find?_cons_of_neg _ (by simpa using hk)] at h
      simp only [setTxn, if_neg hk]
      rw [List.find?_cons_of_neg _ (by simpa using hk)]
      exact ih h

/-- Updating an Operation row in place rewrites exactly the looked-up row,
provided the update keeps the row id. -/
theorem findOperation_updateOperation (ops : List OperationRow) (oid : Nat)
    (f : OperationRow → OperationRow)
    (hf : ∀ o, (f o).operationId = o.operationId) :
    findOperation (updateOperation ops oid f) oid =
      (findOperation ops oid).map f := by
  induction ops with
  | nil => simp [findOperation, updateOperation, List.find?]
  | cons o rest ih =>
    by_cases hk : o.operationId = oid
    · simp [findOperation, updateOperation, hk, List.find?, hf]
    · simp only [findOperation, updateOperation, if_neg hk] at *
      rw [List.find?_cons_of_neg _ (by simpa using hk),
          List.find?_cons_of_neg _ (by simpa using hk)]
      exact ih

/-- **C10.** `CommitTransaction`, `RollbackTransaction` and
`CancelTransaction` of any transaction still present in the active map
clear the process-wide lock unconditionally — the lock's holder is never
compared with the transaction's owner, so in particular a lock held by a
*different* user (one who acquired it after the caller's lock expired) is
also released. -/
theorem C10_terminal_events_clear_foreign_lock (env : CommitEnv) (sys : Sys)
    (now : Int) (tid : String) (t : Txn) (l : TransactionLock)
    (ht : GetTransaction sys tid = some t)
    (hl : sys.lock = some l)
    (hdiff : ¬ l.userId = t.userId) :
    (CommitTransaction env sys now tid).1.lock = none ∧
    (RollbackTransaction sys tid).1.lock = none ∧
    (CancelTransaction sys now tid).1.lock = none := by
  obtain ⟨t0, ht0⟩ : ∃ x, GetTransaction sys tid = some x := ⟨t, ht⟩
  refine ⟨?_, ?_, ?_⟩
  · simp only [CommitTransaction, ht0]
  · simp only [RollbackTransaction, ht0]
  · simp only [CancelTransaction, ht0]

/-- Witness for C10 at the concrete fixture: bob (user 2) holds the lock
while alice's transaction `t1` is still in the map; committing it clears
bob's lock. -/
theorem C10_witness :
    (CommitTransaction noFail
      { fxSysDelete with
          lock := some { fxLock with userId := 2, username := "bob" } }
      1000 "t1").1.lock = none ∧
    (RollbackTransaction
      { fxSysDelete with
          lock := some { fxLock with userId := 2, username := "bob" } }
      "t1").1.lock = none ∧
    (CancelTransaction
      { fxSysDelete with
          lock := some { fxLock with userId := 2, username := "bob" } }
      1000 "t1").1.lock = none :=
  C10_terminal_events_clear_foreign_lock noFail _ 1000 "t1" fxTxnDelete
    { fxLock with userId := 2, username := "bob" }
    (by decide) (by decide) (by decide)

/-- With a resolving id, `CommitTransaction` always reports success
(`transactions.py` 287-304: the exception handler only logs). -/
theorem CommitTransaction_snd (env : CommitEnv) (sys : Sys) (now : Int)
    (tid : String) (t : Txn) (ht : GetTransaction sys tid = some t) :
    (CommitTransaction env sys now tid).2 = true := by
  unfold CommitTransaction
  rw [ht]

/-- `CommitTransaction` never writes the Operations table. -/
theorem CommitTransaction_operations (env : CommitEnv) (sys : Sys)
    (now : Int) (tid : String) (t : Txn)
    (ht : GetTransaction sys tid = some t) :
    (CommitTransaction env sys now tid).1.operations = sys.operations := by
  unfold CommitTransaction
  rw [ht]
  by_cases he : t.uploadedFiles = [] <;>
    by_cases hcf : env.changelistFail <;> simp [he, hcf]

/-- `CommitTransaction` drops the transaction from the active map. -/
theorem CommitTransaction_active (env : CommitEnv) (sys : Sys) (now : Int)
    (tid : String) (t : Txn) (ht : GetTransaction sys tid = some t) :
    (CommitTransaction env sys now tid).1.active =
      removeTxn sys.active tid := by
  unfold CommitTransaction
  rw [ht]
  by_cases he : t.uploadedFiles = [] <;>
    by_cases hcf : env.changelistFail <;> simp [he, hcf]

/-- `CommitTransaction` clears the lock. -/
theorem CommitTransaction_lock (env : CommitEnv) (sys : Sys) (now : Int)
    (tid : String) (t : Txn) (ht : GetTransaction sys tid = some t) :
    (CommitTransaction env sys now tid).1.lock = none := by
  unfold CommitTransaction
  rw [ht]

/-- The server state as the commit route leaves it just before invoking
`CommitTransaction`: Operation row set to `completed` (with Reconcile
counts), last-operation summary refreshed. -/
def commitRouteSys1 (sys : Sys) (now : Int) (uname : String) (t : Txn) :
    Sys :=
  { sys with
    operations := updateOperation sys.operations t.operationId
      (fun o =>
        let o1 := { o with status := "completed"
                           completedAtUtc := some now }
        if t.operationType = "Reconcile" then
          { o1 with filesPulled := some t.filesToPull.length
                    filesPushed := some t.filesToPush.length }
        else o1)
    lastOp := sys.lastOp.map (fun _ =>
      { username := uname, operationType := t.operationType
        serviceType := t.serviceType, timestampUtc := now
        fileCount :=
          if t.operationType = "Push" then t.uploadedFiles.length
          else 0 }) }

/-- Reduction of the commit route on the success path. -/
theorem commit_transaction_reduce (env : CommitEnv) (sys : Sys) (now : Int)
    (tid : String) (uid : Nat) (uname : String) (t : Txn)
    (ht : GetTransaction sys tid = some t)
    (hc : IsTransactionCancelled sys tid = false)
    (hu : t.userId = uid) :
    commit_transaction env sys now tid uid uname =
      ((CommitTransaction env (commitRouteSys1 sys now uname t) now tid).1,
       .ok { success := true
             filesPulled :=
               if t.operationType = "Reconcile" then
                 some t.filesToPull.length
               else none
             filesPushed :=
               if t.operationType = "Reconcile" then
                 some t.filesToPush.length
               else none
             filesTotal := t.uploadedFiles.length }) := by
  have ht1 : GetTransaction (commitRouteSys1 sys now uname t) tid =
      some t := ht
  have hsnd := CommitTransaction_snd env (commitRouteSys1 sys now uname t)
    now tid t ht1
  rcases hP : CommitTransaction env (commitRouteSys1 sys now uname t) now
      tid with ⟨s2, flag⟩
  rw [hP] at hsnd
  simp only at hsnd
  subst hsnd
  unfold commit_transaction
  rw [ht]
  simp only [hc, Bool.false_eq_true, if_false, hu, not_true_eq_false]
  unfold commitRouteSys1 at hP
  rw [hP]

/-- **C2, amended.** Commit is *not* all-or-nothing: whenever the id
resolves, the cancelled check does not fire and the caller owns the
transaction, the commit handler replies success and the Operation Record
ends `completed` — for **every** failure environment, including ones where
moves or metadata inserts raise mid-way (the exception is logged and
swallowed, files moved before the failure stay in the store, the rest are
discarded with the staging area); no rollback path exists and
`rolled_back` is never written. -/
theorem C2_commit_swallows_failure_and_reports_completed (env : CommitEnv)
    (sys : Sys) (now : Int) (tid : String) (uid : Nat) (uname : String)
    (t : Txn) (op : OperationRow)
    (ht : GetTransaction sys tid = some t)
    (hc : IsTransactionCancelled sys tid = false)
    (hu : t.userId = uid)
    (hop : findOperation sys.operations t.operationId = some op) :
    (∃ resp, (commit_transaction env sys now tid uid uname).2 = .ok resp ∧
      resp.success = true) ∧
    (∃ op2, findOperation
        (commit_transaction env sys now tid uid uname).1.operations
        t.operationId = some op2 ∧ op2.status = "completed" ∧
      ¬ op2.status = "rolled_back") ∧
    GetTransaction (commit_transaction env sys now tid uid uname).1 tid =
      none ∧
    (commit_transaction env sys now tid uid uname).1.lock = none := by
  have ht1 : GetTransaction (commitRouteSys1 sys now uname t) tid =
      some t := ht
  have hred := commit_transaction_reduce env sys now tid uid uname t ht hc
    hu
  set f : OperationRow → OperationRow := fun o =>
    let o1 := { o with status := "completed", completedAtUtc := some now }
    if t.operationType = "Reconcile" then
      { o1 with filesPulled := some t.filesToPull.length
                filesPushed := some t.filesToPush.length }
    else o1 with hf
  have hfid : ∀ o, (f o).operationId = o.operationId := by
    intro o
    by_cases hr : t.operationType = "Reconcile" <;> simp [hf, hr]
  have hfst : ∀ o, (f o).status = "completed" := by
    intro o
    by_cases hr : t.operationType = "Reconcile" <;> simp [hf, hr]
  refine ⟨⟨_, by rw [hred], rfl⟩, ⟨f op, ?_, hfst op, ?_⟩, ?_, ?_⟩
  · rw [hred]
    rw [CommitTransaction_operations env (commitRouteSys1 sys now uname t)
      now tid t ht1]
    show findOperation (updateOperation sys.operations t.operationId f)
      t.operationId = some (f op)
    rw [findOperation_updateOperation _ _ _ hfid, hop]
    rfl
  · rw [hfst op]; decide
  · rw [hred]
    unfold GetTransaction
    rw [show (CommitTransaction env (commitRouteSys1 sys now uname t) now
        tid).1.active = removeTxn (commitRouteSys1 sys now uname t).active
        tid from CommitTransaction_active env _ now tid t ht1]
    show (((removeTxn sys.active tid).find?
      (fun kv => kv.1 = tid)).map (·.2)) = none
    rw [find?_removeTxn]
    rfl
  · rw [hred]
    exact CommitTransaction_lock env _ now tid t ht1

/-- Witness for C2 at the two-upload fixture with the `b.txt` move
failing. -/
theorem C2_witness :
    (∃ resp,
      (commit_transaction fxEnvMoveBFails fxSysTwoUploads 1000 "t1" 1
        "alice").2 = .ok resp ∧ resp.success = true) ∧
    (∃ op2, findOperation
        (commit_transaction fxEnvMoveBFails fxSysTwoUploads 1000 "t1" 1
          "alice").1.operations 1 = some op2 ∧
      op2.status = "completed" ∧ ¬ op2.status = "rolled_back") ∧
    GetTransaction
      (commit_transaction fxEnvMoveBFails fxSysTwoUploads 1000 "t1" 1
        "alice").1 "t1" = none ∧
    (commit_transaction fxEnvMoveBFails fxSysTwoUploads 1000 "t1" 1
      "alice").1.lock = none :=
  C2_commit_swallows_failure_and_reports_completed fxEnvMoveBFails
    fxSysTwoUploads 1000 "t1" 1 "alice" fxTxnTwoUploads fxOp
    (by decide) (by decide) (by decide) (by decide)

/-- **C5, amended.** Lock expiration does not invalidate an in-flight
transaction: `GetTransaction` never consults the lock and no background
sweep exists, so with the lock expired the transaction id still resolves,
`upload_file` succeeds (no 404), the file lands in the staging area, and
the transaction — staging included — stays in the active map. -/
theorem C5_expired_lock_upload_still_succeeds (sys : Sys) (now : Int)
    (tid path : String) (b : Blob) (uid : Nat) (t : Txn)
    (l : TransactionLock)
    (ht : GetTransaction sys tid = some t)
    (hc : IsTransactionCancelled sys tid = false)
    (hu : t.userId = uid)
    (hl : sys.lock = some l)
    (hexp : lockExpired l now = true) :
    (upload_file sys tid path b uid).2 =
      .ok { success := true, fileHash := b.hash, path := path
            size := b.size } ∧
    GetTransaction (upload_file sys tid path b uid).1 tid =
      some { t with stagingFiles := stagedPut t.stagingFiles path b
                    uploadedFiles := t.uploadedFiles ++ [path] } ∧
    (upload_file sys tid path b uid).1.lock = sys.lock := by
  have hfind : (sys.active.find? (fun kv => kv.1 = tid)).isSome := by
    unfold GetTransaction at ht
    cases hfk : sys.active.find? (fun kv => kv.1 = tid) with
    | none => rw [hfk] at ht; simp at ht
    | some kv => simp
  have hred : upload_file sys tid path b uid =
      ({ sys with active := setTxn sys.active tid { t with
          stagingFiles := stagedPut t.stagingFiles path b,
          uploadedFiles := t.uploadedFiles ++ [path] } },
       .ok { success := true, fileHash := b.hash, path := path,
             size := b.size }) := by
    unfold upload_file
    rw [ht]
    simp only [hc, Bool.false_eq_true, if_false, hu, not_true_eq_false]
  rw [hred]
  refine ⟨rfl, ?_, rfl⟩
  show ((setTxn sys.active tid _).find? (fun kv => kv.1 = tid)).map (·.2) =
    _
  rw [find?_setTxn _ _ _ hfind]
  rfl

/-- Witness for C5: alice's expired lock, upload of `c.txt` into `t1`. -/
theorem C5_witness :
    (upload_file { fxSysDelete with active := [("t1", fxTxnOneUpload)] }
        "t1" "c.txt" fxBlobB 1).2 =
      .ok { success := true, fileHash := "hB", path := "c.txt", size := 6 } ∧
    GetTransaction
      (upload_file { fxSysDelete with active := [("t1", fxTxnOneUpload)] }
        "t1" "c.txt" fxBlobB 1).1 "t1" =
      some { fxTxnOneUpload with
              stagingFiles := stagedPut fxTxnOneUpload.stagingFiles "c.txt"
                fxBlobB
              uploadedFiles := fxTxnOneUpload.uploadedFiles ++ ["c.txt"] } ∧
    (upload_file { fxSysDelete with active := [("t1", fxTxnOneUpload)] }
        "t1" "c.txt" fxBlobB 1).1.lock =
      ({ fxSysDelete with active := [("t1", fxTxnOneUpload)] } : Sys).lock :=
  C5_expired_lock_upload_still_succeeds _ (301 * 1000000) "t1" "c.txt"
    fxBlobB 1 fxTxnOneUpload fxLock
    (by decide) (by decide) (by decide) (by decide) (by decide)

/-- **C9, amended.** No path validation exists on the upload endpoint: for
*every* value of the `path` form field — traversal sequences included —
`upload_file` succeeds (no 400 is ever produced for a path), and the staged
write for a path beginning with `../..` resolves outside the transaction's
staging directory. -/
theorem C9_upload_accepts_any_path (sys : Sys) (tid path : String)
    (b : Blob) (uid : Nat) (t : Txn)
    (ht : GetTransaction sys tid = some t)
    (hc : IsTransactionCancelled sys tid = false)
    (hu : t.userId = uid) :
    (upload_file sys tid path b uid).2 =
      .ok { success := true, fileHash := b.hash, path := path
            size := b.size } ∧
    (∀ d, ¬ (upload_file sys tid path b uid).2 = .err 400 d) ∧
    insideStaging tid (uploadTarget tid "../../secret.txt") = false := by
  have h1 : (upload_file sys tid path b uid).2 =
      .ok { success := true, fileHash := b.hash, path := path
            size := b.size } := by
    simp only [upload_file, ht, hc, Bool.false_eq_true, if_false, hu,
      not_true_eq_false]
  refine ⟨h1, ?_, ?_⟩
  · intro d hd
    rw [h1] at hd
    exact absurd hd (by simp)
  · have hjoin : joinUnder ["staging", tid] "../../secret.txt" =
        ["staging", tid, "..", "..", "secret.txt"] := by
      have habs : absolutePath "../../secret.txt" = false := by decide
      have hpc : pathComponents "../../secret.txt" =
          ["..", "..", "secret.txt"] := by decide
      simp [joinUnder, habs, hpc]
    have hres : resolveComponents ["staging", tid, "..", "..", "secret.txt"] =
        ["secret.txt"] := by
      by_cases h2 : tid = ".."
      · subst h2; decide
      · by_cases h3 : tid = "."
        · subst h3; decide
        · simp [resolveComponents, h2, h3]
    rw [uploadTarget, hjoin, hres]
    rfl

/-- Witness for C9: a traversal upload into alice's transaction. -/
theorem C9_witness :
    (upload_file fxSysDelete "t1" "../a/../../b.txt" fxBlobA 1).2 =
      .ok { success := true, fileHash := fxBlobA.hash
            path := "../a/../../b.txt", size := fxBlobA.size } ∧
    (∀ d, ¬ (upload_file fxSysDelete "t1" "../a/../../b.txt" fxBlobA 1).2 =
      .err 400 d) ∧
    insideStaging "t1" (uploadTarget "t1" "../../secret.txt") = false :=
  C9_upload_accepts_any_path fxSysDelete "t1" "../a/../../b.txt" fxBlobA 1
    fxTxnDelete (by decide) (by decide) (by decide)

/-! ## Reconcile planner lemmas -/

/-- The timestamp an entry normalizes to (when it does not raise). -/
def tsValue : TimestampField → Option Int
  | .null => none
  | .parseFail _ => none
  | .time t => some t

/-- Whether the timestamp field is a string `fromisoformat` rejects. -/
def isParseFailTS : TimestampField → Bool
  | .parseFail _ => true
  | _ => false

/-- The normalized form of a client entry. -/
def normOf (m : ClientMetaIn) : NormMeta :=
  { mtime := tsValue m.modifiedUtc, size := m.size, hash := m.hash }

/-- The planner's normalized view of the client inventory. -/
def normClient (client : List (String × ClientMetaIn)) :
    List (String × NormMeta) :=
  client.map (fun pm => (pm.1, normOf pm.2))

/-- The paths present on the server only, as the planner computes them. -/
def serverOnlyPaths (server : List FileRow)
    (client : List (String × ClientMetaIn)) : List String :=
  (server.filter (fun f => ¬ client.any (fun c => c.1 = f.path))).map
    (·.path)

theorem normClient_keys (client : List (String × ClientMetaIn)) :
    (normClient client).map Prod.fst = client.map Prod.fst := by
  induction client with
  | nil => rfl
  | cons pm rest ih => simp_all [normClient]

theorem mem_normClient (client : List (String × ClientMetaIn)) (p : String)
    (m : NormMeta) :
    (p, m) ∈ normClient client ↔
      ∃ cm, (p, cm) ∈ client ∧ m = normOf cm := by
  unfold normClient
  rw [List.mem_map]
  constructor
  · rintro ⟨pm, hpm, heq⟩
    have hp : pm.1 = p := congrArg Prod.fst heq
    have hm : normOf pm.2 = m := congrArg Prod.snd heq
    exact ⟨pm.2, by rwa [← hp, Prod.mk.eta], hm.symm⟩
  · rintro ⟨cm, hcm, hm⟩
    exact ⟨(p, cm), hcm, by rw [hm]⟩


theorem normalizeMeta_ok (m : ClientMetaIn)
    (h : isParseFailTS m.modifiedUtc = false) :
    normalizeMeta m = .ok (normOf m) := by
  cases hm : m.modifiedUtc <;>
    simp_all [normalizeMeta, normOf, tsValue, isParseFailTS]

theorem normalizeClient_ok (client : List (String × ClientMetaIn))
    (h : ∀ pm ∈ client, isParseFailTS pm.2.modifiedUtc = false) :
    normalizeClient client = .ok (normClient client) := by
  induction client with
  | nil => rfl
  | cons pm rest ih =>
    have h1 := normalizeMeta_ok pm.2 (h pm (by simp))
    have h2 := ih (fun q hq => h q (by simp [hq]))
    simp only [normalizeClient, h1, h2, normClient, List.map_cons]

/-- The decision made for one client entry, when it does not raise. -/
def entryDecision (server : List FileRow) (p : String) (m : NormMeta) :
    Except PyErr ReconcileDecision :=
  match findServer server p with
  | some sf => compareOne sf m
  | none => .ok .push

/-- The paths the loop sends to `files_to_pull`. -/
def specPull (server : List FileRow) (norm : List (String × NormMeta)) :
    List String :=
  norm.filterMap (fun pm =>
    match entryDecision server pm.1 pm.2 with
    | .ok .pull => some pm.1
    | _ => none)

/-- The paths the loop sends to `files_to_push`. -/
def specPush (server : List FileRow) (norm : List (String × NormMeta)) :
    List String :=
  norm.filterMap (fun pm =>
    match entryDecision server pm.1 pm.2 with
    | .ok .push => some pm.1
    | _ => none)

theorem reconcileLoop_eq (server : List FileRow)
    (norm : List (String × NormMeta)) (pull0 push0 : List String)
    (h : ∀ pm ∈ norm, ∃ d, entryDecision server pm.1 pm.2 = .ok d) :
    reconcileLoop server norm pull0 push0 =
      .ok (pull0 ++ specPull server norm, push0 ++ specPush server norm) := by
  induction norm generalizing pull0 push0 with
  | nil => simp [reconcileLoop, specPull, specPush]
  | cons pm rest ih =>
    obtain ⟨d, hd⟩ := h pm (by simp)
    have hrest : ∀ q ∈ rest, ∃ d, entryDecision server q.1 q.2 = .ok d :=
      fun q hq => h q (by simp [hq])
    obtain ⟨p, m⟩ := pm
    cases hsv : findServer server p with
    | some sf =>
      have hd2 : compareOne sf m = .ok d := by
        simpa only [entryDecision, hsv] using hd
      cases d with
      | pull =>
        have h1 : reconcileLoop server ((p, m) :: rest) pull0 push0 =
            reconcileLoop server rest (pull0 ++ [p]) push0 := by
          simp only [reconcileLoop, hsv, hd2]
        have h2 : specPull server ((p, m) :: rest) =
            p :: specPull server rest := by
          simp only [specPull, List.filterMap_cons, entryDecision, hsv, hd2]
        have h3 : specPush server ((p, m) :: rest) =
            specPush server rest := by
          simp only [specPush, List.filterMap_cons, entryDecision, hsv, hd2]
        rw [h1, ih _ _ hrest, h2, h3]
        simp [List.append_assoc]
      | push =>
        have h1 : reconcileLoop server ((p, m) :: rest) pull0 push0 =
            reconcileLoop server rest pull0 (push0 ++ [p]) := by
          simp only [reconcileLoop, hsv, hd2]
        have h2 : specPull server ((p, m) :: rest) =
            specPull server rest := by
          simp only [specPull, List.filterMap_cons, entryDecision, hsv, hd2]
        have h3 : specPush server ((p, m) :: rest) =
            p :: specPush server rest := by
          simp only [specPush, List.filterMap_cons, entryDecision, hsv, hd2]
        rw [h1, ih _ _ hrest, h2, h3]
        simp [List.append_assoc]
      | skip =>
        have h1 : reconcileLoop server ((p, m) :: rest) pull0 push0 =
            reconcileLoop server rest pull0 push0 := by
          simp only [reconcileLoop, hsv, hd2]
        have h2 : specPull server ((p, m) :: rest) =
            specPull server rest := by
          simp only [specPull, List.filterMap_cons, entryDecision, hsv, hd2]
        have h3 : specPush server ((p, m) :: rest) =
            specPush server rest := by
          simp only [specPush, List.filterMap_cons, entryDecision, hsv, hd2]
        rw [h1, ih _ _ hrest, h2, h3]
    | none =>
      have h1 : reconcileLoop server ((p, m) :: rest) pull0 push0 =
          reconcileLoop server rest pull0 (push0 ++ [p]) := by
        simp only [reconcileLoop, hsv]
      have h2 : specPull server ((p, m) :: rest) =
          specPull server rest := by
        simp only [specPull, List.filterMap_cons, entryDecision, hsv]
      have h3 : specPush server ((p, m) :: rest) =
          p :: specPush server rest := by
        simp only [specPush, List.filterMap_cons, entryDecision, hsv]
      rw [h1, ih _ _ hrest, h2, h3]
      simp [List.append_assoc]

theorem reconcileLoop_typeError (server : List FileRow)
    (norm : List (String × NormMeta)) (pull0 push0 : List String)
    (h : ∃ pm ∈ norm, ∃ sf, findServer server pm.1 = some sf ∧
      (sf.modifiedUtc = none ∨ pm.2.mtime = none)) :
    reconcileLoop server norm pull0 push0 = .error .typeError := by
  induction norm generalizing pull0 push0 with
  | nil => simp at h
  | cons pm rest ih =>
    obtain ⟨q, hq, sf0, hsv0, hnone0⟩ := h
    obtain ⟨p, m⟩ := pm
    rcases List.mem_cons.mp hq with hq | hq
    · subst hq
      have hsv1 : findServer server p = some sf0 := hsv0
      have hm : sf0.modifiedUtc = none ∨ m.mtime = none := hnone0
      have hcmp : compareOne sf0 m = .error .typeError := by
        unfold compareOne
        rcases hm with h0 | h0
        · rw [h0]
        · rw [h0]; cases sf0.modifiedUtc <;> rfl
      simp only [reconcileLoop, hsv1, hcmp]
    · cases hsv : findServer server p with
      | some sf =>
        cases hcmp : compareOne sf m with
        | error e =>
          have he : e = .typeError := by
            unfold compareOne at hcmp
            cases hs : sf.modifiedUtc <;> cases hm : m.mtime <;>
              rw [hs, hm] at hcmp <;> simp_all
          subst he
          simp only [reconcileLoop, hsv, hcmp]
        | ok d =>
          cases d <;>
            simp only [reconcileLoop, hsv, hcmp] <;>
            exact ih _ _ ⟨q, hq, sf0, hsv0, hnone0⟩
      | none =>
        simp only [reconcileLoop, hsv]
        exact ih _ _ ⟨q, hq, sf0, hsv0, hnone0⟩

/-- **C8, amended.** With every client timestamp parseable, a client entry
whose timestamp is null (or whose server row lacks one) for a path that is
also in the server inventory makes the planner raise `TypeError` — it does
not defer to the size and hash comparisons and returns no result. -/
theorem C8_missing_timestamp_errors (st : Storage)
    (client : List (String × ClientMetaIn)) (svc : String)
    (hparse : ∀ pm ∈ client, isParseFailTS pm.2.modifiedUtc = false)
    (hex : ∃ pm ∈ client, ∃ sf,
      findServer (ListFiles st.db svc false) pm.1 = some sf ∧
      (sf.modifiedUtc = none ∨ pm.2.modifiedUtc = .null)) :
    CompareFilesForReconcile st client svc = .error .typeError := by
  obtain ⟨pm, hpm, sf, hsv, hnone⟩ := hex
  have hnorm := normalizeClient_ok client hparse
  have hloop := reconcileLoop_typeError (ListFiles st.db svc false)
    (normClient client) [] []
    ⟨(pm.1, normOf pm.2), List.mem_map.mpr ⟨pm, hpm, rfl⟩, sf, hsv, by
      rcases hnone with h0 | h0
      · exact Or.inl h0
      · exact Or.inr (by simp [normOf, h0, tsValue])⟩
  simp only [CompareFilesForReconcile, hnorm, hloop]

/-- In an association list with duplicate-free keys the value of a key is
unique. -/
theorem assoc_value_unique {β : Type} (l : List (String × β))
    (h : (l.map Prod.fst).Nodup) (a : String) (b1 b2 : β)
    (h1 : (a, b1) ∈ l) (h2 : (a, b2) ∈ l) : b1 = b2 := by
  induction l with
  | nil => simp at h1
  | cons kv rest ih =>
    rw [List.map_cons, List.nodup_cons] at h
    rcases List.mem_cons.mp h1 with he1 | he1 <;>
      rcases List.mem_cons.mp h2 with he2 | he2
    · have h12 : ((a, b1) : String × β) = (a, b2) := he1.trans he2.symm
      exact congrArg Prod.snd h12
    · exact absurd (List.mem_map.mpr ⟨_, he2, by rw [← he1]⟩) h.1
    · exact absurd (List.mem_map.mpr ⟨_, he1, by rw [← he2]⟩) h.1
    · exact ih h.2 he1 he2

theorem mem_specPull (server : List FileRow)
    (norm : List (String × NormMeta)) (p : String) :
    p ∈ specPull server norm ↔
      ∃ m, (p, m) ∈ norm ∧ entryDecision server p m = .ok .pull := by
  unfold specPull
  rw [List.mem_filterMap]
  constructor
  · rintro ⟨⟨p0, m0⟩, hpm, hf⟩
    rcases hres : entryDecision server p0 m0 with e | d
    · rw [hres] at hf; simp at hf
    · rw [hres] at hf
      cases d <;> simp at hf
      exact ⟨m0, by rwa [← hf], by rwa [← hf]⟩
  · rintro ⟨m, hm, hd⟩
    exact ⟨(p, m), hm, by rw [hd]⟩

theorem mem_specPush (server : List FileRow)
    (norm : List (String × NormMeta)) (p : String) :
    p ∈ specPush server norm ↔
      ∃ m, (p, m) ∈ norm ∧ entryDecision server p m = .ok .push := by
  unfold specPush
  rw [List.mem_filterMap]
  constructor
  · rintro ⟨⟨p0, m0⟩, hpm, hf⟩
    rcases hres : entryDecision server p0 m0 with e | d
    · rw [hres] at hf; simp at hf
    · rw [hres] at hf
      cases d <;> simp at hf
      exact ⟨m0, by rwa [← hf], by rwa [← hf]⟩
  · rintro ⟨m, hm, hd⟩
    exact ⟨(p, m), hm, by rw [hd]⟩

theorem mem_serverOnly (server : List FileRow)
    (client : List (String × ClientMetaIn)) (p : String) :
    p ∈ serverOnlyPaths server client ↔
      (∃ sf ∈ server, sf.path = p) ∧ ∀ pm ∈ client, ¬ pm.1 = p := by
  rw [serverOnlyPaths, List.mem_map]
  constructor
  · rintro ⟨sf, hsf, hp⟩
    rw [List.mem_filter] at hsf
    obtain ⟨h1, h2⟩ := hsf
    refine ⟨⟨sf, h1, hp⟩, ?_⟩
    intro pm hpm hpe
    have h3 : client.any (fun c => decide (c.1 = sf.path)) = false := by
      simpa using h2
    rw [List.any_eq_false] at h3
    have h4 := h3 pm hpm
    rw [decide_eq_true_eq] at h4
    exact h4 (hpe.trans hp.symm)
  · rintro ⟨⟨sf, hsf, hp⟩, hnone⟩
    refine ⟨sf, ?_, hp⟩
    rw [List.mem_filter]
    refine ⟨hsf, ?_⟩
    have h3 : client.any (fun c => decide (c.1 = sf.path)) = false := by
      rw [List.any_eq_false]
      intro pm hpm
      rw [decide_eq_true_eq]
      intro hpe
      exact hnone pm hpm (hpe.trans hp)
    simpa using h3

/-- The `files_to_pull` side of the both-present comparison, spelled out as
the spec words it. -/
theorem decideBoth_eq_pull_iff (s c : Int) (ss cs : Option Int)
    (sh ch : Option String) :
    decideBoth s c ss cs sh ch = .pull ↔
      (oneSecondUs < (s - c).natAbs ∧ c < s) ∨
      ((s - c).natAbs ≤ oneSecondUs ∧ ¬ cs = ss ∧ c ≤ s) ∨
      ((s - c).natAbs ≤ oneSecondUs ∧ cs = ss ∧ ¬ ch = sh ∧ c ≤ s) := by
  unfold decideBoth
  split_ifs with h1 h2 h3 h4 h5 h6 <;> simp_all <;> omega

/-- The `files_to_push` side of the both-present comparison. -/
theorem decideBoth_eq_push_iff (s c : Int) (ss cs : Option Int)
    (sh ch : Option String) :
    decideBoth s c ss cs sh ch = .push ↔
      (oneSecondUs < (s - c).natAbs ∧ s < c) ∨
      ((s - c).natAbs ≤ oneSecondUs ∧ ¬ cs = ss ∧ s < c) ∨
      ((s - c).natAbs ≤ oneSecondUs ∧ cs = ss ∧ ¬ ch = sh ∧ s < c) := by
  unfold decideBoth
  split_ifs with h1 h2 h3 h4 h5 h6 <;> simp_all <;> omega

/-- Witness for C8: the fixture store and a single null-timestamp entry for
`a.txt`, which the server holds. -/
theorem C8_witness :
    CompareFilesForReconcile fxStorage
      [("a.txt", { modifiedUtc := .null, size := some 10, hash := some "h0" })]
      "Contemporary" = .error .typeError :=
  C8_missing_timestamp_errors fxStorage
    [("a.txt", { modifiedUtc := .null, size := some 10, hash := some "h0" })]
    "Contemporary" (by decide)
    ⟨("a.txt", { modifiedUtc := .null, size := some 10, hash := some "h0" }),
     by decide, fxRow1, by decide, Or.inr rfl⟩

/-- **C6.** For every path on both sides (the server inventory already
excludes tombstones), with both timestamps present: mtimes apart by more
than one second — the later side wins (server newer → `files_to_pull`,
client newer → `files_to_push`); otherwise unequal sizes — the later mtime
wins with ties to the server; otherwise unequal hashes — the same rule;
otherwise neither set.  Client-only paths push, server-only paths pull,
every pulled or pushed path comes from one of the sides, and the two sets
are disjoint (so each path lands in exactly one of pull/push/no-op). -/
theorem C6_reconcile_decision_rules (st : Storage)
    (client : List (String × ClientMetaIn)) (svc : String)
    (hnodup : (client.map Prod.fst).Nodup)
    (hparse : ∀ pm ∈ client, isParseFailTS pm.2.modifiedUtc = false)
    (hok : ∀ pm ∈ client, ∀ sf,
      findServer (ListFiles st.db svc false) pm.1 = some sf →
      (∃ c, pm.2.modifiedUtc = .time c) ∧ (∃ s, sf.modifiedUtc = some s)) :
    ∃ pull push,
      CompareFilesForReconcile st client svc = .ok (pull, push) ∧
      (∀ p, ¬ (p ∈ pull ∧ p ∈ push)) ∧
      (∀ p, p ∈ pull →
        p ∈ (ListFiles st.db svc false).map (·.path) ∨
        p ∈ client.map Prod.fst) ∧
      (∀ p, p ∈ push → p ∈ client.map Prod.fst) ∧
      (∀ pm ∈ client,
        findServer (ListFiles st.db svc false) pm.1 = none →
        pm.1 ∈ push ∧ ¬ pm.1 ∈ pull) ∧
      (∀ sf ∈ ListFiles st.db svc false,
        (∀ pm ∈ client, ¬ pm.1 = sf.path) →
        sf.path ∈ pull ∧ ¬ sf.path ∈ push) ∧
      (∀ pm ∈ client, ∀ sf,
        findServer (ListFiles st.db svc false) pm.1 = some sf →
        ∀ s c, sf.modifiedUtc = some s → pm.2.modifiedUtc = .time c →
          (pm.1 ∈ pull ↔
            (oneSecondUs < (s - c).natAbs ∧ c < s) ∨
            ((s - c).natAbs ≤ oneSecondUs ∧ ¬ pm.2.size = sf.size ∧
              c ≤ s) ∨
            ((s - c).natAbs ≤ oneSecondUs ∧ pm.2.size = sf.size ∧
              ¬ pm.2.hash = sf.fileHash ∧ c ≤ s)) ∧
          (pm.1 ∈ push ↔
            (oneSecondUs < (s - c).natAbs ∧ s < c) ∨
            ((s - c).natAbs ≤ oneSecondUs ∧ ¬ pm.2.size = sf.size ∧
              s < c) ∨
            ((s - c).natAbs ≤ oneSecondUs ∧ pm.2.size = sf.size ∧
              ¬ pm.2.hash = sf.fileHash ∧ s < c))) := by
  have hnodupN : ((normClient client).map Prod.fst).Nodup := by
    rw [normClient_keys]; exact hnodup
  have huniq : ∀ p m1 m2, (p, m1) ∈ normClient client →
      (p, m2) ∈ normClient client → m1 = m2 :=
    fun p m1 m2 h1 h2 => assoc_value_unique _ hnodupN p m1 m2 h1 h2
  have hdec : ∀ pm ∈ normClient client,
      ∃ d, entryDecision (ListFiles st.db svc false) pm.1 pm.2 = .ok d := by
    rintro ⟨p, m⟩ hpm
    obtain ⟨cm, hcm, hmeq⟩ := (mem_normClient client p m).mp hpm
    unfold entryDecision
    cases hsv : findServer (ListFiles st.db svc false) p with
    | none => exact ⟨.push, rfl⟩
    | some sf =>
      obtain ⟨⟨c, hc⟩, ⟨s, hs⟩⟩ := hok (p, cm) hcm sf hsv
      refine ⟨decideBoth s c sf.size m.size sf.fileHash m.hash, ?_⟩
      have hc2 : cm.modifiedUtc = .time c := hc
      show compareOne sf m =
        .ok (decideBoth s c sf.size m.size sf.fileHash m.hash)
      unfold compareOne
      rw [hs, show m.mtime = some c from by
        rw [hmeq]; simp [normOf, hc2, tsValue]]
  have hloop := reconcileLoop_eq (ListFiles st.db svc false)
    (normClient client) [] [] hdec
  have hres : CompareFilesForReconcile st client svc =
      .ok (specPull (ListFiles st.db svc false) (normClient client) ++
             serverOnlyPaths (ListFiles st.db svc false) client,
           specPush (ListFiles st.db svc false) (normClient client)) := by
    have hnorm := normalizeClient_ok client hparse
    simp only [CompareFilesForReconcile, hnorm, hloop, List.nil_append]
    rfl
  refine ⟨_, _, hres, ?_, ?_, ?_, ?_, ?_, ?_⟩
  · rintro p ⟨hpl, hps⟩
    obtain ⟨m2, hm2, hd2⟩ := (mem_specPush _ _ p).mp hps
    rcases List.mem_append.mp hpl with hsp | hso
    · obtain ⟨m1, hm1, hd1⟩ := (mem_specPull _ _ p).mp hsp
      have heqm := huniq p m1 m2 hm1 hm2
      subst heqm
      rw [hd1] at hd2
      simp at hd2
    · obtain ⟨_, hnoc⟩ := (mem_serverOnly _ _ p).mp hso
      obtain ⟨cm, hcm, _⟩ := (mem_normClient client p m2).mp hm2
      exact hnoc (p, cm) hcm rfl
  · intro p hpl
    rcases List.mem_append.mp hpl with hsp | hso
    · right
      obtain ⟨m1, hm1, _⟩ := (mem_specPull _ _ p).mp hsp
      obtain ⟨cm, hcm, _⟩ := (mem_normClient client p m1).mp hm1
      exact List.mem_map.mpr ⟨(p, cm), hcm, rfl⟩
    · left
      obtain ⟨⟨sf, hsf, hp⟩, _⟩ := (mem_serverOnly _ _ p).mp hso
      exact List.mem_map.mpr ⟨sf, hsf, hp⟩
  · intro p hps
    obtain ⟨m1, hm1, _⟩ := (mem_specPush _ _ p).mp hps
    obtain ⟨cm, hcm, _⟩ := (mem_normClient client p m1).mp hm1
    exact List.mem_map.mpr ⟨(p, cm), hcm, rfl⟩
  · intro pm hpm hsv
    have hmem : (pm.1, normOf pm.2) ∈ normClient client :=
      (mem_normClient client pm.1 (normOf pm.2)).mpr
        ⟨pm.2, by rwa [Prod.mk.eta], rfl⟩
    have hd : entryDecision (ListFiles st.db svc false) pm.1
        (normOf pm.2) = .ok .push := by
      unfold entryDecision; rw [hsv]
    constructor
    · exact (mem_specPush _ _ pm.1).mpr ⟨normOf pm.2, hmem, hd⟩
    · intro hpl
      rcases List.mem_append.mp hpl with hsp | hso
      · obtain ⟨m1, hm1, hd1⟩ := (mem_specPull _ _ pm.1).mp hsp
        have heqm := huniq pm.1 m1 (normOf pm.2) hm1 hmem
        subst heqm
        rw [hd] at hd1
        simp at hd1
      · obtain ⟨_, hnoc⟩ := (mem_serverOnly _ _ pm.1).mp hso
        exact hnoc pm hpm rfl
  · intro sf hsf hno
    have hso : sf.path ∈ serverOnlyPaths (ListFiles st.db svc false)
        client :=
      (mem_serverOnly _ _ sf.path).mpr ⟨⟨sf, hsf, rfl⟩, hno⟩
    constructor
    · exact List.mem_append.mpr (Or.inr hso)
    · intro hps
      obtain ⟨m2, hm2, _⟩ := (mem_specPush _ _ sf.path).mp hps
      obtain ⟨cm, hcm, _⟩ := (mem_normClient client sf.path m2).mp hm2
      exact hno (sf.path, cm) hcm rfl
  · intro pm hpm sf hsv s c hs hc
    have hmem : (pm.1, normOf pm.2) ∈ normClient client :=
      (mem_normClient client pm.1 (normOf pm.2)).mpr
        ⟨pm.2, by rwa [Prod.mk.eta], rfl⟩
    have hmm : (normOf pm.2).mtime = some c := by
      simp [normOf, hc, tsValue]
    have hd : entryDecision (ListFiles st.db svc false) pm.1
        (normOf pm.2) =
        .ok (decideBoth s c sf.size pm.2.size sf.fileHash pm.2.hash) := by
      have h1 : entryDecision (ListFiles st.db svc false) pm.1
          (normOf pm.2) = compareOne sf (normOf pm.2) := by
        unfold entryDecision; rw [hsv]
      rw [h1]
      unfold compareOne
      rw [hs, hmm]
      rfl
    have hnotso : ¬ pm.1 ∈ serverOnlyPaths (ListFiles st.db svc false)
        client := by
      intro hso
      obtain ⟨_, hnoc⟩ := (mem_serverOnly _ _ pm.1).mp hso
      exact hnoc pm hpm rfl
    constructor
    · constructor
      · intro hpl
        rcases List.mem_append.mp hpl with hsp | hso
        · obtain ⟨m1, hm1, hd1⟩ := (mem_specPull _ _ pm.1).mp hsp
          have heqm := huniq pm.1 m1 (normOf pm.2) hm1 hmem
          subst heqm
          rw [hd] at hd1
          injection hd1 with hdb
          exact (decideBoth_eq_pull_iff s c sf.size pm.2.size sf.fileHash
            pm.2.hash).mp hdb
        · exact absurd hso hnotso
      · intro hrhs
        have hdb := (decideBoth_eq_pull_iff s c sf.size pm.2.size
          sf.fileHash pm.2.hash).mpr hrhs
        have hde : entryDecision (ListFiles st.db svc false) pm.1
            (normOf pm.2) = .ok .pull := by rw [hd, hdb]
        exact List.mem_append.mpr
          (Or.inl ((mem_specPull _ _ pm.1).mpr ⟨normOf pm.2, hmem, hde⟩))
    · constructor
      · intro hps
        obtain ⟨m1, hm1, hd1⟩ := (mem_specPush _ _ pm.1).mp hps
        have heqm := huniq pm.1 m1 (normOf pm.2) hm1 hmem
        subst heqm
        rw [hd] at hd1
        injection hd1 with hdb
        exact (decideBoth_eq_push_iff s c sf.size pm.2.size sf.fileHash
          pm.2.hash).mp hdb
      · intro hrhs
        have hdb := (decideBoth_eq_push_iff s c sf.size pm.2.size
          sf.fileHash pm.2.hash).mpr hrhs
        have hde : entryDecision (ListFiles st.db svc false) pm.1
            (normOf pm.2) = .ok .push := by rw [hd, hdb]
        exact (mem_specPush _ _ pm.1).mpr ⟨normOf pm.2, hmem, hde⟩

/-- A one-entry client inventory matching the fixture server's current
revision of `a.txt`. -/
def fxClientC6 : List (String × ClientMetaIn) :=
  [("a.txt", { modifiedUtc := .time 200, size := some 20, hash := some "h1" })]

/-- Witness for C6 at the fixture store and a concrete client inventory. -/
theorem C6_witness :
    ∃ pull push,
      CompareFilesForReconcile fxStorage fxClientC6 "Contemporary" =
        .ok (pull, push) ∧
      (∀ p, ¬ (p ∈ pull ∧ p ∈ push)) ∧
      (∀ p, p ∈ pull →
        p ∈ (ListFiles fxStorage.db "Contemporary" false).map (·.path) ∨
        p ∈ fxClientC6.map Prod.fst) ∧
      (∀ p, p ∈ push → p ∈ fxClientC6.map Prod.fst) ∧
      (∀ pm ∈ fxClientC6,
        findServer (ListFiles fxStorage.db "Contemporary" false) pm.1 =
          none →
        pm.1 ∈ push ∧ ¬ pm.1 ∈ pull) ∧
      (∀ sf ∈ ListFiles fxStorage.db "Contemporary" false,
        (∀ pm ∈ fxClientC6, ¬ pm.1 = sf.path) →
        sf.path ∈ pull ∧ ¬ sf.path ∈ push) ∧
      (∀ pm ∈ fxClientC6, ∀ sf,
        findServer (ListFiles fxStorage.db "Contemporary" false) pm.1 =
          some sf →
        ∀ s c, sf.modifiedUtc = some s → pm.2.modifiedUtc = .time c →
          (pm.1 ∈ pull ↔
            (oneSecondUs < (s - c).natAbs ∧ c < s) ∨
            ((s - c).natAbs ≤ oneSecondUs ∧ ¬ pm.2.size = sf.size ∧
              c ≤ s) ∨
            ((s - c).natAbs ≤ oneSecondUs ∧ pm.2.size = sf.size ∧
              ¬ pm.2.hash = sf.fileHash ∧ c ≤ s)) ∧
          (pm.1 ∈ push ↔
            (oneSecondUs < (s - c).natAbs ∧ s < c) ∨
            ((s - c).natAbs ≤ oneSecondUs ∧ ¬ pm.2.size = sf.size ∧
              s < c) ∨
            ((s - c).natAbs ≤ oneSecondUs ∧ pm.2.size = sf.size ∧
              ¬ pm.2.hash = sf.fileHash ∧ s < c))) :=
  C6_reconcile_decision_rules fxStorage fxClientC6 "Contemporary"
    (by decide) (by decide)
    (by
      intro pm hpm sf hsv
      have hpm2 : pm = ("a.txt",
          ({ modifiedUtc := .time 200, size := some 20, hash := some "h1" } :
            ClientMetaIn)) := by
        simpa [fxClientC6] using hpm
      subst hpm2
      have hsv2 : findServer (ListFiles fxStorage.db "Contemporary" false)
          "a.txt" = some sf := hsv
      have hsrv : findServer (ListFiles fxStorage.db "Contemporary" false)
          "a.txt" = some fxRow1 := by decide
      rw [hsrv] at hsv2
      have hsfe := Option.some.inj hsv2
      subst hsfe
      exact ⟨⟨200, rfl⟩, ⟨200, by decide⟩⟩)

/-! ## Sorting and maximum lemmas for the revision store -/

theorem insertRevDesc_perm (r : FileRow) (l : List FileRow) :
    List.Perm (insertRevDesc r l) (r :: l) := by
  induction l with
  | nil => rfl
  | cons x xs ih =>
    unfold insertRevDesc
    by_cases h : r.revision ≥ x.revision
    · rw [if_pos h]
    · rw [if_neg h]
      exact ((ih.cons x).trans (List.Perm.swap r x xs))

theorem sortRevDesc_perm (l : List FileRow) :
    List.Perm (sortRevDesc l) l := by
  induction l with
  | nil => rfl
  | cons x xs ih =>
    exact (insertRevDesc_perm x (sortRevDesc xs)).trans (ih.cons x)

/-- The descending-revision order the sort establishes. -/
def revGE (a b : FileRow) : Prop := b.revision ≤ a.revision

theorem insertRevDesc_sorted (r : FileRow) (l : List FileRow)
    (h : l.Pairwise revGE) : (insertRevDesc r l).Pairwise revGE := by
  induction l with
  | nil => simp [insertRevDesc, List.Pairwise]
  | cons x xs ih =>
    rw [List.pairwise_cons] at h
    unfold insertRevDesc
    by_cases hc : r.revision ≥ x.revision
    · rw [if_pos hc]
      rw [List.pairwise_cons]
      constructor
      · intro b hb
        rcases List.mem_cons.mp hb with hb | hb
        · subst hb; exact hc
        · exact le_trans (h.1 b hb) hc
      · exact List.pairwise_cons.mpr h
    · rw [if_neg hc]
      rw [List.pairwise_cons]
      constructor
      · intro b hb
        have hperm := insertRevDesc_perm r xs
        rcases List.mem_cons.mp (hperm.mem_iff.mp hb) with hb | hb
        · subst hb
          exact le_of_not_le hc
        · exact h.1 b hb
      · exact ih h.2

theorem sortRevDesc_sorted (l : List FileRow) :
    (sortRevDesc l).Pairwise revGE := by
  induction l with
  | nil => simp [sortRevDesc]
  | cons x xs ih => exact insertRevDesc_sorted x (sortRevDesc xs) ih

/-- The head of the descending sort bounds every element's revision. -/
theorem sortRevDesc_head_ge (l : List FileRow) (top : FileRow)
    (h : (sortRevDesc l).head? = some top) :
    top ∈ l ∧ ∀ r ∈ l, r.revision ≤ top.revision := by
  have hperm := sortRevDesc_perm l
  cases hs : sortRevDesc l with
  | nil => rw [hs] at h; simp at h
  | cons x xs =>
    rw [hs] at h
    simp only [List.head?_cons, Option.some.injEq] at h
    subst h
    rw [hs] at hperm
    constructor
    · exact hperm.mem_iff.mp (by simp)
    · intro r hr
      rcases List.mem_cons.mp (hperm.mem_iff.mpr hr) with hr2 | hr2
      · rw [hr2]
      · have hsorted := sortRevDesc_sorted l
        rw [hs, List.pairwise_cons] at hsorted
        exact hsorted.1 r hr2

theorem foldl_maxStep_some (l : List FileRow) (a : Int) :
    l.foldl maxStep (some a) =
      some (l.foldl (fun m r => max m r.revision) a) := by
  induction l generalizing a with
  | nil => rfl
  | cons x xs ih => simpa [maxStep] using ih (max a x.revision)

theorem le_foldl_maxInt (l : List FileRow) (a : Int) :
    a ≤ l.foldl (fun m r => max m r.revision) a := by
  induction l generalizing a with
  | nil => simp
  | cons x xs ih => exact le_trans (le_max_left a x.revision) (ih _)

theorem mem_le_foldl_maxInt (l : List FileRow) (a : Int) (r : FileRow)
    (h : r ∈ l) : r.revision ≤ l.foldl (fun m r => max m r.revision) a := by
  induction l generalizing a with
  | nil => simp at h
  | cons x xs ih =>
    rcases List.mem_cons.mp h with h | h
    · subst h
      exact le_trans (le_max_right a r.revision) (le_foldl_maxInt xs _)
    · exact ih _ h

theorem foldl_maxInt_attained (l : List FileRow) (a : Int) :
    l.foldl (fun m r => max m r.revision) a = a ∨
      ∃ r ∈ l, l.foldl (fun m r => max m r.revision) a = r.revision := by
  induction l generalizing a with
  | nil => simp
  | cons x xs ih =>
    rcases ih (max a x.revision) with h | ⟨r, hr, he⟩
    · simp only [List.foldl_cons]
      rcases max_choice a x.revision with hm | hm
      · rw [h, hm]; exact Or.inl rfl
      · rw [h, hm]; exact Or.inr ⟨x, by simp, rfl⟩
    · exact Or.inr ⟨r, by simp [hr], he⟩

/-- Every row's revision is bounded by `maxRevision`. -/
theorem maxRevision_ge (db : List FileRow) (path service : String)
    (r : FileRow) (h : r ∈ rowsFor db path service) :
    ∃ m, maxRevision db path service = some m ∧ r.revision ≤ m := by
  unfold maxRevision
  cases hl : rowsFor db path service with
  | nil => rw [hl] at h; simp at h
  | cons x xs =>
    rw [hl] at h
    simp only [List.foldl_cons, maxStep, foldl_maxStep_some]
    refine ⟨_, rfl, ?_⟩
    rcases List.mem_cons.mp h with h | h
    · subst h; exact le_foldl_maxInt xs _
    · exact mem_le_foldl_maxInt xs _ r h

/-- `maxRevision` is attained by some row. -/
theorem maxRevision_attained (db : List FileRow) (path service : String)
    (m : Int) (h : maxRevision db path service = some m) :
    ∃ r ∈ rowsFor db path service, r.revision = m := by
  unfold maxRevision at h
  cases hl : rowsFor db path service with
  | nil => rw [hl] at h; simp [List.foldl] at h
  | cons x xs =>
    rw [hl] at h
    simp only [List.foldl_cons, maxStep, foldl_maxStep_some,
      Option.some.injEq] at h
    rcases foldl_maxInt_attained xs x.revision with h2 | ⟨r, hr, he⟩
    · rw [h2] at h; exact ⟨x, by simp, h⟩
    · rw [he] at h; exact ⟨r, by simp [hr], h⟩

/-- The head of the `ORDER BY revision DESC` query is the row with the
maximum revision. -/
theorem maxRevision_eq_top (db : List FileRow) (path service : String)
    (top : FileRow)
    (h : (sortRevDesc (rowsFor db path service)).head? = some top) :
    maxRevision db path service = some top.revision := by
  obtain ⟨hmem, hbound⟩ := sortRevDesc_head_ge _ _ h
  obtain ⟨m, hm, hle⟩ := maxRevision_ge db path service top hmem
  obtain ⟨r, hr, he⟩ := maxRevision_attained db path service m hm
  have hle2 : m ≤ top.revision := by rw [← he]; exact hbound r hr
  rw [hm]
  exact congrArg some (le_antisymm hle2 hle)

/-! ## Metadata and disk update lemmas -/

theorem storeMeta_fresh (db : List FileRow) (row : FileRow)
    (h : ∀ q ∈ db, ¬ rowKey q = rowKey row) :
    storeMeta db row = db ++ [row] := by
  induction db with
  | nil => rfl
  | cons q rest ih =>
    unfold storeMeta
    rw [if_neg (h q (by simp))]
    rw [ih (fun x hx => h x (by simp [hx]))]
    rfl

theorem mem_rowsFor_of_rowKey (db : List FileRow) (q : FileRow)
    (p s : String) (rev : Int) (hq : q ∈ db)
    (hk : rowKey q = (p, s, rev)) : q ∈ rowsFor db p s := by
  unfold rowKey at hk
  have h1 : q.path = p := congrArg (fun t => t.1) hk
  have h2 : q.service = s := congrArg (fun t => t.2.1) hk
  unfold rowsFor
  rw [List.mem_filter]
  exact ⟨hq, by simp [h1, h2]⟩

theorem rowKey_fresh_of_lt (db : List FileRow) (p s : String) (rev : Int)
    (h : ∀ q ∈ rowsFor db p s, q.revision < rev) :
    ∀ q ∈ db, ¬ rowKey q = (p, s, rev) := by
  intro q hq hk
  have hmem := mem_rowsFor_of_rowKey db q p s rev hq hk
  have h3 : q.revision = rev := congrArg (fun t => t.2.2) hk
  exact absurd (h3 ▸ h q hmem) (lt_irrefl rev)

theorem rowsFor_append_match (db : List FileRow) (row : FileRow)
    (p s : String) (h1 : row.path = p) (h2 : row.service = s) :
    rowsFor (db ++ [row]) p s = rowsFor db p s ++ [row] := by
  unfold rowsFor
  rw [List.filter_append]
  simp [h1, h2]

theorem maxRevision_append_match (db : List FileRow) (row : FileRow)
    (p s : String) (m : Int) (h1 : row.path = p) (h2 : row.service = s)
    (hm : maxRevision db p s = some m) :
    maxRevision (db ++ [row]) p s = some (max m row.revision) := by
  unfold maxRevision at *
  rw [rowsFor_append_match db row p s h1 h2, List.foldl_append, hm]
  rfl

theorem find?_append_none {α : Type} (l1 l2 : List α) (p : α → Bool)
    (h : l1.find? p = none) : (l1 ++ l2).find? p = l2.find? p := by
  induction l1 with
  | nil => rfl
  | cons a rest ih =>
    rw [List.find?_cons] at h
    cases hp : p a with
    | true => rw [hp] at h; simp at h
    | false =>
      rw [hp] at h
      rw [List.cons_append, List.find?_cons, hp]
      exact ih h

theorem GetFileMetadata_none_of_lt (db : List FileRow) (p s : String)
    (rev : Int) (h : ∀ q ∈ rowsFor db p s, q.revision < rev) :
    GetFileMetadata db p s rev = none := by
  unfold GetFileMetadata
  rw [List.find?_eq_none]
  intro q hq
  simp only [decide_eq_true_eq]
  exact rowKey_fresh_of_lt db p s rev h q hq

theorem GetFileMetadata_append_hit (db : List FileRow) (row : FileRow)
    (p s : String) (rev : Int)
    (hnone : GetFileMetadata db p s rev = none)
    (hk : rowKey row = (p, s, rev)) :
    GetFileMetadata (db ++ [row]) p s rev = some row := by
  unfold GetFileMetadata at *
  rw [find?_append_none _ _ _ hnone]
  rw [List.find?_cons_of_pos _ (by simp [hk])]

theorem diskGet_put_same (d : List (DiskKey × Blob)) (k : DiskKey)
    (b : Blob) : diskGet (diskPut d k b) k = some b := by
  unfold diskGet diskPut
  rw [List.find?_cons_of_pos _ (by simp)]
  rfl

theorem find?_filter_of_imp {α : Type} (l : List α) (p q : α → Bool)
    (h : ∀ a, p a = true → q a = true) :
    (l.filter q).find? p = l.find? p := by
  induction l with
  | nil => rfl
  | cons a rest ih =>
    cases hq : q a with
    | true =>
      rw [List.filter_cons_of_pos hq, List.find?_cons, List.find?_cons]
      cases hp : p a with
      | true => rfl
      | false => exact ih
    | false =>
      rw [List.filter_cons_of_neg (by simp [hq]), List.find?_cons]
      cases hp : p a with
      | true => exact absurd (h a hp) (by simp [hq])
      | false => exact ih

theorem diskGet_put_ne (d : List (DiskKey × Blob)) (k k2 : DiskKey)
    (b : Blob) (h : ¬ k2 = k) :
    diskGet (diskPut d k b) k2 = diskGet d k2 := by
  unfold diskGet diskPut
  have h2 : ¬ k = k2 := fun he => h he.symm
  rw [List.find?_cons_of_neg _ (by simpa using h2)]
  rw [find?_filter_of_imp]
  intro kv hkv
  simp only [decide_eq_true_eq] at hkv ⊢
  exact fun he => h (hkv ▸ he)

/-- One more `find?` fact: a hit in the left part of an append wins. -/
theorem find?_append_some {a : Type} (l1 l2 : List a) (p : a → Bool)
    (x : a) (h : l1.find? p = some x) : (l1 ++ l2).find? p = some x := by
  induction l1 with
  | nil => simp [List.find?] at h
  | cons q rest ih =>
    rw [List.find?_cons] at h
    cases hp : p q with
    | true =>
      rw [hp] at h
      rw [List.cons_append, List.find?_cons, hp]
      exact h
    | false =>
      rw [hp] at h
      rw [List.cons_append, List.find?_cons, hp]
      exact ih h

theorem GetFileMetadata_append_left (db l2 : List FileRow) (p s : String)
    (rev : Int) (row : FileRow) (h : GetFileMetadata db p s rev = some row) :
    GetFileMetadata (db ++ l2) p s rev = some row := by
  unfold GetFileMetadata at *
  exact find?_append_some _ _ _ _ h

/-- **C7.** `restore_revision(path, R)` rejects `R` equal to the current
(maximum) revision with 400; otherwise (with `R` an existing revision whose
blob is on disk, and the current blob `cb` present) it archives the current
blob as revision `N = next_revision_number` carrying the current blob's
hash/size and the current row's timestamp and author, copies revision `R`'s
blob `rb` to `N + 1` with freshly computed hash/size, a now-timestamp and
the invoking user, so that afterwards the current (maximum) revision is
`N + 1`, its content equals revision `R`'s content, and no pre-existing
metadata row or blob (their revisions all lie below `N`) is removed. -/
theorem C7_restore_revision_spec (st : Storage) (now : Int) (uid : Nat)
    (path svc : String) (R : Int) (top : FileRow) (rb cb : Blob)
    (hsvc : svc = "Contemporary" ∨ svc = "Traditional")
    (htop : (sortRevDesc (rowsFor st.db path svc)).head? = some top)
    (hR0 : 0 ≤ R)
    (hRmem : (rowsFor st.db path svc).any (fun r => r.revision = R) = true)
    (hdR : diskGet st.disk (svc, path, some R) = some rb)
    (hdC : diskGet st.disk (svc, path, some top.revision) = some cb) :
    (R = top.revision →
      restore_file_revision st now uid path svc R =
        .err 400 "Revision is already the current version") ∧
    (¬ R = top.revision →
      ∃ st4, restore_file_revision st now uid path svc R = .ok st4 ∧
        maxRevision st4.db path svc =
          some (GetNextRevisionNumber st.db path svc + 1) ∧
        diskGet st4.disk
          (svc, path, some (GetNextRevisionNumber st.db path svc + 1)) =
          some rb ∧
        GetFileMetadata st4.db path svc
          (GetNextRevisionNumber st.db path svc) =
          some { path := path, service := svc, revision := GetNextRevisionNumber st.db path svc, fileHash := some cb.hash, size := some cb.size, modifiedUtc := top.modifiedUtc, isDeleted := false, userId := top.userId, changelistId := none } ∧
        GetFileMetadata st4.db path svc
          (GetNextRevisionNumber st.db path svc + 1) =
          some { path := path, service := svc, revision := GetNextRevisionNumber st.db path svc + 1, fileHash := some rb.hash, size := some rb.size, modifiedUtc := some now, isDeleted := false, userId := some uid, changelistId := none } ∧
        (∀ r ∈ st.db, r ∈ st4.db) ∧
        (∀ k b0, diskGet st.disk k = some b0 →
          ¬ k = (svc, path, some (GetNextRevisionNumber st.db path svc)) →
          ¬ k = (svc, path,
            some (GetNextRevisionNumber st.db path svc + 1)) →
          diskGet st4.disk k = some b0)) := by
  have hm : maxRevision st.db path svc = some top.revision :=
    maxRevision_eq_top st.db path svc top htop
  have hN : GetNextRevisionNumber st.db path svc = top.revision + 1 := by
    unfold GetNextRevisionNumber
    rw [hm]
  have hbound := (sortRevDesc_head_ge (rowsFor st.db path svc) top htop).2
  have h1c : (¬ (svc = "Contemporary" ∨ svc = "Traditional")) = False :=
    eq_false (not_not_intro hsvc)
  have h2c : (R < 0) = False := eq_false (not_lt.mpr hR0)
  have harith : top.revision + 1 + 1 = top.revision + 2 := by omega
  constructor
  · intro hre
    have h3c : (R = top.revision) = True := eq_true hre
    simp only [restore_file_revision, h1c, h2c, h3c, if_false, if_true,
      htop]
  · intro hne
    have h3c : (R = top.revision) = False := eq_false hne
    have h4c : (¬ (rowsFor st.db path svc).any
        (fun r => r.revision = R) = true) = False :=
      eq_false (not_not_intro hRmem)
    have hfresh1 : ∀ q ∈ st.db, ¬ rowKey q =
        (path, svc, top.revision + 1) :=
      rowKey_fresh_of_lt st.db path svc (top.revision + 1)
        (fun q hq => by have := hbound q hq; omega)
    have hstore1 : storeMeta st.db { path := path, service := svc, revision := top.revision + 1, fileHash := some cb.hash, size := some cb.size, modifiedUtc := top.modifiedUtc, isDeleted := false, userId := top.userId, changelistId := none } = st.db ++ [{ path := path, service := svc, revision := top.revision + 1, fileHash := some cb.hash, size := some cb.size, modifiedUtc := top.modifiedUtc, isDeleted := false, userId := top.userId, changelistId := none }] :=
      storeMeta_fresh _ _ (fun q hq => hfresh1 q hq)
    have hmax1 : maxRevision (st.db ++ [{ path := path, service := svc, revision := top.revision + 1, fileHash := some cb.hash, size := some cb.size, modifiedUtc := top.modifiedUtc, isDeleted := false, userId := top.userId, changelistId := none }]) path svc =
        some (top.revision + 1) := by
      have hprojA : ({ path := path, service := svc, revision := top.revision + 1, fileHash := some cb.hash, size := some cb.size, modifiedUtc := top.modifiedUtc, isDeleted := false, userId := top.userId, changelistId := none } : FileRow).revision = top.revision + 1 := rfl
      rw [maxRevision_append_match st.db { path := path, service := svc, revision := top.revision + 1, fileHash := some cb.hash, size := some cb.size, modifiedUtc := top.modifiedUtc, isDeleted := false, userId := top.userId, changelistId := none } path svc top.revision rfl rfl
        hm, hprojA]
      exact congrArg some (max_eq_right (by omega))
    have hrev2 : GetNextRevisionNumber (st.db ++ [{ path := path, service := svc, revision := top.revision + 1, fileHash := some cb.hash, size := some cb.size, modifiedUtc := top.modifiedUtc, isDeleted := false, userId := top.userId, changelistId := none }]) path svc =
        top.revision + 2 := by
      unfold GetNextRevisionNumber
      rw [hmax1]
      show top.revision + 1 + 1 = top.revision + 2
      omega
    have hboundA : ∀ q ∈ rowsFor (st.db ++ [{ path := path, service := svc, revision := top.revision + 1, fileHash := some cb.hash, size := some cb.size, modifiedUtc := top.modifiedUtc, isDeleted := false, userId := top.userId, changelistId := none }]) path svc,
        q.revision < top.revision + 2 := by
      intro q hq
      rw [rowsFor_append_match st.db { path := path, service := svc, revision := top.revision + 1, fileHash := some cb.hash, size := some cb.size, modifiedUtc := top.modifiedUtc, isDeleted := false, userId := top.userId, changelistId := none } path svc rfl rfl] at hq
      rcases List.mem_append.mp hq with hq | hq
      · have := hbound q hq
        omega
      · have hqe : q = { path := path, service := svc, revision := top.revision + 1, fileHash := some cb.hash, size := some cb.size, modifiedUtc := top.modifiedUtc, isDeleted := false, userId := top.userId, changelistId := none } := by simpa using hq
        rw [hqe]
        show top.revision + 1 < top.revision + 2
        omega
    have hfresh2 : ∀ q ∈ st.db ++ [{ path := path, service := svc, revision := top.revision + 1, fileHash := some cb.hash, size := some cb.size, modifiedUtc := top.modifiedUtc, isDeleted := false, userId := top.userId, changelistId := none }], ¬ rowKey q =
        (path, svc, top.revision + 2) :=
      rowKey_fresh_of_lt _ path svc (top.revision + 2) hboundA
    have hstore2 : storeMeta (st.db ++ [{ path := path, service := svc, revision := top.revision + 1, fileHash := some cb.hash, size := some cb.size, modifiedUtc := top.modifiedUtc, isDeleted := false, userId := top.userId, changelistId := none }]) { path := path, service := svc, revision := top.revision + 2, fileHash := some rb.hash, size := some rb.size, modifiedUtc := some now, isDeleted := false, userId := some uid, changelistId := none } =
        (st.db ++ [{ path := path, service := svc, revision := top.revision + 1, fileHash := some cb.hash, size := some cb.size, modifiedUtc := top.modifiedUtc, isDeleted := false, userId := top.userId, changelistId := none }]) ++ [{ path := path, service := svc, revision := top.revision + 2, fileHash := some rb.hash, size := some rb.size, modifiedUtc := some now, isDeleted := false, userId := some uid, changelistId := none }] :=
      storeMeta_fresh _ _ (fun q hq => hfresh2 q hq)
    have hmax2 : maxRevision ((st.db ++ [{ path := path, service := svc, revision := top.revision + 1, fileHash := some cb.hash, size := some cb.size, modifiedUtc := top.modifiedUtc, isDeleted := false, userId := top.userId, changelistId := none }]) ++ [{ path := path, service := svc, revision := top.revision + 2, fileHash := some rb.hash, size := some rb.size, modifiedUtc := some now, isDeleted := false, userId := some uid, changelistId := none }]) path svc =
        some (top.revision + 2) := by
      have hprojR : ({ path := path, service := svc, revision := top.revision + 2, fileHash := some rb.hash, size := some rb.size, modifiedUtc := some now, isDeleted := false, userId := some uid, changelistId := none } : FileRow).revision = top.revision + 2 := rfl
      rw [maxRevision_append_match _ { path := path, service := svc, revision := top.revision + 2, fileHash := some rb.hash, size := some rb.size, modifiedUtc := some now, isDeleted := false, userId := some uid, changelistId := none } path svc (top.revision + 1) rfl
        rfl hmax1, hprojR]
      exact congrArg some (max_eq_right (by omega))
    refine ⟨{ db := (st.db ++ [{ path := path, service := svc, revision := top.revision + 1, fileHash := some cb.hash, size := some cb.size, modifiedUtc := top.modifiedUtc, isDeleted := false, userId := top.userId, changelistId := none }]) ++ [{ path := path, service := svc, revision := top.revision + 2, fileHash := some rb.hash, size := some rb.size, modifiedUtc := some now, isDeleted := false, userId := some uid, changelistId := none }], disk := diskPut (diskPut st.disk (svc, path, some (top.revision + 1)) cb) (svc, path, some (top.revision + 2)) rb, maxRevisions := st.maxRevisions },
            ?_, ?_, ?_, ?_, ?_, ?_, ?_⟩
    · simp only [restore_file_revision, h1c, h2c, h3c, h4c, if_false,
        htop, hdR, hdC, hN, hstore1, hrev2, hstore2]
    · rw [hN, harith]
      exact hmax2
    · rw [hN, harith]
      exact diskGet_put_same _ _ _
    · rw [hN]
      have hin : GetFileMetadata (st.db ++ [{ path := path, service := svc, revision := top.revision + 1, fileHash := some cb.hash, size := some cb.size, modifiedUtc := top.modifiedUtc, isDeleted := false, userId := top.userId, changelistId := none }]) path svc
          (top.revision + 1) = some { path := path, service := svc, revision := top.revision + 1, fileHash := some cb.hash, size := some cb.size, modifiedUtc := top.modifiedUtc, isDeleted := false, userId := top.userId, changelistId := none } :=
        GetFileMetadata_append_hit st.db { path := path, service := svc, revision := top.revision + 1, fileHash := some cb.hash, size := some cb.size, modifiedUtc := top.modifiedUtc, isDeleted := false, userId := top.userId, changelistId := none } path svc (top.revision + 1)
          (GetFileMetadata_none_of_lt st.db path svc (top.revision + 1)
            (fun q hq => by have := hbound q hq; omega))
          rfl
      exact GetFileMetadata_append_left _ _ _ _ _ _ hin
    · rw [hN, harith]
      exact GetFileMetadata_append_hit (st.db ++ [{ path := path, service := svc, revision := top.revision + 1, fileHash := some cb.hash, size := some cb.size, modifiedUtc := top.modifiedUtc, isDeleted := false, userId := top.userId, changelistId := none }]) { path := path, service := svc, revision := top.revision + 2, fileHash := some rb.hash, size := some rb.size, modifiedUtc := some now, isDeleted := false, userId := some uid, changelistId := none } path svc
        (top.revision + 2)
        (GetFileMetadata_none_of_lt _ path svc (top.revision + 2) hboundA)
        rfl
    · intro r hr
      exact List.mem_append_left _ (List.mem_append_left _ hr)
    · intro k b0 hb hne1 hne2
      rw [hN] at hne1
      rw [hN, harith] at hne2
      rw [diskGet_put_ne _ _ _ _ hne2, diskGet_put_ne _ _ _ _ hne1]
      exact hb

/-- Witness for C7: restore revision 0 of `a.txt` on the fixture store
(current revision 1). -/
theorem C7_witness :
    (0 = fxRow1.revision →
      restore_file_revision fxStorage 5000 7 "a.txt" "Contemporary" 0 =
        .err 400 "Revision is already the current version") ∧
    (¬ (0 : Int) = fxRow1.revision →
      ∃ st4, restore_file_revision fxStorage 5000 7 "a.txt" "Contemporary"
          0 = .ok st4 ∧
        maxRevision st4.db "a.txt" "Contemporary" =
          some (GetNextRevisionNumber fxStorage.db "a.txt" "Contemporary"
            + 1) ∧
        diskGet st4.disk
          ("Contemporary", "a.txt",
            some (GetNextRevisionNumber fxStorage.db "a.txt" "Contemporary"
              + 1)) = some fxBlob0 ∧
        GetFileMetadata st4.db "a.txt" "Contemporary"
          (GetNextRevisionNumber fxStorage.db "a.txt" "Contemporary") =
          some { path := "a.txt", service := "Contemporary", revision := GetNextRevisionNumber fxStorage.db "a.txt" "Contemporary", fileHash := some fxBlob1.hash, size := some fxBlob1.size, modifiedUtc := fxRow1.modifiedUtc, isDeleted := false, userId := fxRow1.userId, changelistId := none } ∧
        GetFileMetadata st4.db "a.txt" "Contemporary"
          (GetNextRevisionNumber fxStorage.db "a.txt" "Contemporary" + 1) =
          some { path := "a.txt", service := "Contemporary", revision := GetNextRevisionNumber fxStorage.db "a.txt" "Contemporary" + 1, fileHash := some fxBlob0.hash, size := some fxBlob0.size, modifiedUtc := some 5000, isDeleted := false, userId := some 7, changelistId := none } ∧
        (∀ r ∈ fxStorage.db, r ∈ st4.db) ∧
        (∀ k b0, diskGet fxStorage.disk k = some b0 →
          ¬ k = ("Contemporary", "a.txt",
            some (GetNextRevisionNumber fxStorage.db "a.txt"
              "Contemporary")) →
          ¬ k = ("Contemporary", "a.txt",
            some (GetNextRevisionNumber fxStorage.db "a.txt" "Contemporary"
              + 1)) →
          diskGet st4.disk k = some b0)) :=
  C7_restore_revision_spec fxStorage 5000 7 "a.txt" "Contemporary" 0
    fxRow1 fxBlob0 fxBlob1 (Or.inl rfl) (by decide) (by decide) (by decide)
    (by decide) (by decide)

/-- The deletion fold of `CleanupOldRevisions` filters the deleted keys out
of the metadata table. -/
theorem cleanupFold_db (path service : String) (l : List FileRow)
    (st : Storage) :
    ((l.foldl
        (fun acc r =>
          { acc with
            disk := diskErase acc.disk (service, path, some r.revision)
            db := deleteRow acc.db path service r.revision })
        st).db) =
      st.db.filter
        (fun q => ¬ ∃ r ∈ l, rowKey q = (path, service, r.revision)) := by
  induction l generalizing st with
  | nil =>
    simp only [List.foldl_nil]
    have : ∀ q ∈ st.db,
        (decide (¬ ∃ r ∈ ([] : List FileRow),
          rowKey q = (path, service, r.revision))) = true := by
      intro q hq
      simp
    rw [List.filter_eq_self.mpr this]
  | cons r rest ih =>
    rw [List.foldl_cons, ih]
    show (deleteRow st.db path service r.revision).filter _ = _
    unfold deleteRow
    rw [List.filter_filter]
    apply List.filter_congr
    intro q hq
    by_cases h1 : rowKey q = (path, service, r.revision) <;>
      by_cases h2 : ∃ x ∈ rest, rowKey q = (path, service, x.revision) <;>
      simp [h1, h2]


/-- **C4, amended.** `CommitTransaction` performs no pruning (see the
counterexample); pruning happens only on the `CreateRevision` archive path.
`CleanupOldRevisions(service, path)` itself: leaves at most `max_revisions`
rows with `revision > 0` for the `(service, path)`, never deletes the
current (highest) revision nor the revision-0 row nor any other path's
rows, and the rows it does delete are precisely lowest-numbered ones —
every deleted revision is strictly below every kept positive revision. -/
theorem C4_cleanup_caps_old_revisions (st : Storage) (path svc : String)
    (hdistinct : (((rowsFor st.db path svc)).map (fun r => r.revision)).Nodup)
    (hcap : 1 ≤ st.maxRevisions) :
    ((rowsFor (CleanupOldRevisions st path svc).db path svc).filter
        (fun (r : FileRow) => decide (r.revision > 0))).length ≤ st.maxRevisions ∧
    (∀ top, (GetAllRevisions st.db path svc).head? = some top →
      top ∈ (CleanupOldRevisions st path svc).db) ∧
    (∀ r ∈ st.db, ¬ (r.path = path ∧ r.service = svc) →
      r ∈ (CleanupOldRevisions st path svc).db) ∧
    (∀ r ∈ st.db, r.revision = 0 →
      r ∈ (CleanupOldRevisions st path svc).db) ∧
    (∀ r ∈ st.db, ¬ r ∈ (CleanupOldRevisions st path svc).db →
      (r.path = path ∧ r.service = svc ∧ 0 < r.revision ∧
       ∀ q ∈ rowsFor (CleanupOldRevisions st path svc).db path svc,
         0 < q.revision → r.revision < q.revision)) := by
  by_cases hc : (((GetAllRevisions st.db path svc).filter (fun (r : FileRow) => decide (r.revision > 0)))).length > st.maxRevisions
  case neg =>
    have hdb : (CleanupOldRevisions st path svc).db = st.db := by
      simp only [CleanupOldRevisions]
      rw [if_neg hc]
    have hperm : List.Perm ((rowsFor st.db path svc).filter (fun (r : FileRow) => decide (r.revision > 0))) ((GetAllRevisions st.db path svc).filter (fun (r : FileRow) => decide (r.revision > 0))) :=
      ((sortRevDesc_perm (rowsFor st.db path svc)).filter (fun (r : FileRow) => decide (r.revision > 0))).symm
    have hlen : ((rowsFor st.db path svc).filter (fun (r : FileRow) => decide (r.revision > 0))).length ≤ st.maxRevisions := by
      rw [hperm.length_eq]
      omega
    refine ⟨by rw [hdb]; exact hlen, ?_, ?_, ?_, ?_⟩
    · intro top htop
      rw [hdb]
      have hmem : top ∈ (rowsFor st.db path svc) := (sortRevDesc_head_ge (rowsFor st.db path svc) top htop).1
      have hmem2 : top ∈ st.db.filter
          (fun (r : FileRow) => decide (r.path = path ∧ r.service = svc)) := hmem
      exact (List.mem_filter.mp hmem2).1
    · intro r hr _
      rw [hdb]; exact hr
    · intro r hr _
      rw [hdb]; exact hr
    · intro r hr hnot
      rw [hdb] at hnot
      exact absurd hr hnot
  case pos =>
    have hdb : (CleanupOldRevisions st path svc).db =
        st.db.filter (fun (q : FileRow) => decide (¬ ∃ x ∈ (((GetAllRevisions st.db path svc).filter (fun (r : FileRow) => decide (r.revision > 0))).drop st.maxRevisions), rowKey q = (path, svc, x.revision))) := by
      simp only [CleanupOldRevisions]
      rw [if_pos hc]
      exact cleanupFold_db path svc _ st
    have hpermF : List.Perm (sortRevDesc (rowsFor st.db path svc)) (rowsFor st.db path svc) := sortRevDesc_perm _
    have hsorted := sortRevDesc_sorted (rowsFor st.db path svc)
    have holdmem : ∀ q ∈ ((GetAllRevisions st.db path svc).filter (fun (r : FileRow) => decide (r.revision > 0))), q ∈ (rowsFor st.db path svc) ∧ 0 < q.revision := by
      intro q hq
      rw [List.mem_filter] at hq
      refine ⟨hpermF.mem_iff.mp hq.1, by simpa using hq.2⟩
    have hkeyOld : ∀ q ∈ ((GetAllRevisions st.db path svc).filter (fun (r : FileRow) => decide (r.revision > 0))), rowKey q = (path, svc, q.revision) := by
      intro q hq
      obtain ⟨hmemF, _⟩ := holdmem q hq
      simp only [rowsFor, List.mem_filter, decide_eq_true_eq] at hmemF
      unfold rowKey
      rw [hmemF.2.1, hmemF.2.2]
    have hnodupOld : ((((GetAllRevisions st.db path svc).filter (fun (r : FileRow) => decide (r.revision > 0)))).map (fun r => r.revision)).Nodup := by
      have hsub : (((GetAllRevisions st.db path svc).filter (fun (r : FileRow) => decide (r.revision > 0)))).Sublist (GetAllRevisions st.db path svc) :=
        List.filter_sublist _
      have hsubm := hsub.map (fun r => r.revision)
      have hnodupAll : ((GetAllRevisions st.db path svc).map
          (fun r => r.revision)).Nodup :=
        ((hpermF.map (fun r => r.revision)).nodup_iff).mpr hdistinct
      exact hnodupAll.sublist hsubm
    have hpairOld : (((GetAllRevisions st.db path svc).filter (fun (r : FileRow) => decide (r.revision > 0)))).Pairwise revGE := hsorted.filter _
    have hdelkey : ∀ x ∈ (((GetAllRevisions st.db path svc).filter (fun (r : FileRow) => decide (r.revision > 0))).drop st.maxRevisions),
        rowKey x = (path, svc, x.revision) ∧ 0 < x.revision := by
      intro x hx
      have hxold := List.mem_of_mem_drop hx
      exact ⟨hkeyOld x hxold, (holdmem x hxold).2⟩
    refine ⟨?_, ?_, ?_, ?_, ?_⟩
    · -- retention cap
      have hstep1 : (rowsFor (CleanupOldRevisions st path svc).db path
          svc).filter (fun (r : FileRow) => decide (r.revision > 0)) = st.db.filter (fun (q : FileRow) => decide ((¬ ∃ x ∈ (((GetAllRevisions st.db path svc).filter (fun (r : FileRow) => decide (r.revision > 0))).drop st.maxRevisions), rowKey q = (path, svc, x.revision)) ∧ (q.path = path ∧ q.service = svc) ∧ q.revision > 0)) := by
        rw [hdb]
        show ((st.db.filter _).filter _).filter _ = _
        rw [List.filter_filter, List.filter_filter]
        apply List.filter_congr
        intro q hq
        by_cases h1 : ∃ x ∈ (((GetAllRevisions st.db path svc).filter (fun (r : FileRow) => decide (r.revision > 0))).drop st.maxRevisions), rowKey q = (path, svc, x.revision) <;>
          by_cases h2 : q.path = path ∧ q.service = svc <;>
          by_cases h3 : q.revision > 0 <;>
          simp [h1, h2, h3]
      have hstep2 : ((rowsFor st.db path svc).filter (fun (r : FileRow) => decide (r.revision > 0))).filter (fun (q : FileRow) => decide (¬ ∃ x ∈ (((GetAllRevisions st.db path svc).filter (fun (r : FileRow) => decide (r.revision > 0))).drop st.maxRevisions), rowKey q = (path, svc, x.revision))) =
          st.db.filter (fun (q : FileRow) => decide ((¬ ∃ x ∈ (((GetAllRevisions st.db path svc).filter (fun (r : FileRow) => decide (r.revision > 0))).drop st.maxRevisions), rowKey q = (path, svc, x.revision)) ∧ (q.path = path ∧ q.service = svc) ∧ q.revision > 0)) := by
        show ((st.db.filter _).filter _).filter _ = _
        rw [List.filter_filter, List.filter_filter]
        apply List.filter_congr
        intro q hq
        by_cases h1 : ∃ x ∈ (((GetAllRevisions st.db path svc).filter (fun (r : FileRow) => decide (r.revision > 0))).drop st.maxRevisions), rowKey q = (path, svc, x.revision) <;>
          by_cases h2 : q.path = path ∧ q.service = svc <;>
          by_cases h3 : q.revision > 0 <;>
          simp [h1, h2, h3]
      rw [hstep1, ← hstep2]
      have hperm3 : List.Perm (((rowsFor st.db path svc).filter (fun (r : FileRow) => decide (r.revision > 0))).filter (fun (q : FileRow) => decide (¬ ∃ x ∈ (((GetAllRevisions st.db path svc).filter (fun (r : FileRow) => decide (r.revision > 0))).drop st.maxRevisions), rowKey q = (path, svc, x.revision))))
          ((((GetAllRevisions st.db path svc).filter (fun (r : FileRow) => decide (r.revision > 0)))).filter (fun (q : FileRow) => decide (¬ ∃ x ∈ (((GetAllRevisions st.db path svc).filter (fun (r : FileRow) => decide (r.revision > 0))).drop st.maxRevisions), rowKey q = (path, svc, x.revision)))) :=
        ((sortRevDesc_perm (rowsFor st.db path svc)).filter (fun (r : FileRow) => decide (r.revision > 0))).symm.filter (fun (q : FileRow) => decide (¬ ∃ x ∈ (((GetAllRevisions st.db path svc).filter (fun (r : FileRow) => decide (r.revision > 0))).drop st.maxRevisions), rowKey q = (path, svc, x.revision)))
      rw [hperm3.length_eq]
      have hfnil : ((((GetAllRevisions st.db path svc).filter (fun (r : FileRow) => decide (r.revision > 0))).drop st.maxRevisions)).filter (fun (q : FileRow) => decide (¬ ∃ x ∈ (((GetAllRevisions st.db path svc).filter (fun (r : FileRow) => decide (r.revision > 0))).drop st.maxRevisions), rowKey q = (path, svc, x.revision))) = [] := by
        rw [List.filter_eq_nil_iff]
        intro b hb
        simp only [decide_eq_true_eq, not_not]
        exact ⟨b, hb, (hdelkey b hb).1⟩
      have hfsplit : (((GetAllRevisions st.db path svc).filter (fun (r : FileRow) => decide (r.revision > 0)))).filter (fun (q : FileRow) => decide (¬ ∃ x ∈ (((GetAllRevisions st.db path svc).filter (fun (r : FileRow) => decide (r.revision > 0))).drop st.maxRevisions), rowKey q = (path, svc, x.revision))) =
          ((((GetAllRevisions st.db path svc).filter (fun (r : FileRow) => decide (r.revision > 0)))).take st.maxRevisions).filter (fun (q : FileRow) => decide (¬ ∃ x ∈ (((GetAllRevisions st.db path svc).filter (fun (r : FileRow) => decide (r.revision > 0))).drop st.maxRevisions), rowKey q = (path, svc, x.revision))) ++
            ((((GetAllRevisions st.db path svc).filter (fun (r : FileRow) => decide (r.revision > 0))).drop st.maxRevisions)).filter (fun (q : FileRow) => decide (¬ ∃ x ∈ (((GetAllRevisions st.db path svc).filter (fun (r : FileRow) => decide (r.revision > 0))).drop st.maxRevisions), rowKey q = (path, svc, x.revision))) := by
        rw [← List.filter_append, List.take_append_drop]
      rw [hfsplit, hfnil, List.length_append, List.length_nil]
      have h1 := List.length_filter_le (fun (q : FileRow) => decide (¬ ∃ x ∈ (((GetAllRevisions st.db path svc).filter (fun (r : FileRow) => decide (r.revision > 0))).drop st.maxRevisions), rowKey q = (path, svc, x.revision)))
        ((((GetAllRevisions st.db path svc).filter (fun (r : FileRow) => decide (r.revision > 0)))).take st.maxRevisions)
      have h2 := List.length_take_le st.maxRevisions ((GetAllRevisions st.db path svc).filter (fun (r : FileRow) => decide (r.revision > 0)))
      omega
    · -- the current (highest) revision row survives
      intro top htop
      rw [hdb, List.mem_filter]
      have hmemtop : top ∈ (rowsFor st.db path svc) := (sortRevDesc_head_ge (rowsFor st.db path svc) top htop).1
      have hmemtop2 : top ∈ st.db.filter
          (fun (r : FileRow) => decide (r.path = path ∧ r.service = svc)) := hmemtop
      refine ⟨(List.mem_filter.mp hmemtop2).1, ?_⟩
      simp only [decide_eq_true_eq]
      rintro ⟨x, hx, hkeq⟩
      have hxpos := (hdelkey x hx).2
      have hrev : top.revision = x.revision :=
        congrArg (fun t => t.2.2) hkeq
      have htoppos : 0 < top.revision := by rw [hrev]; exact hxpos
      obtain ⟨tl, hall⟩ : ∃ tl, sortRevDesc (rowsFor st.db path svc) = top :: tl := by
        have htop2 : (sortRevDesc (rowsFor st.db path svc)).head? = some top := htop
        cases hs : sortRevDesc (rowsFor st.db path svc) with
        | nil => rw [hs] at htop2; simp at htop2
        | cons y ys =>
          rw [hs] at htop2
          simp only [List.head?_cons, Option.some.injEq] at htop2
          exact ⟨ys, by rw [htop2]⟩
      have holdcons : ((GetAllRevisions st.db path svc).filter (fun (r : FileRow) => decide (r.revision > 0))) = top :: tl.filter (fun (r : FileRow) => decide (r.revision > 0)) := by
        have hga : GetAllRevisions st.db path svc = top :: tl := hall
        rw [hga]
        simp only [List.filter_cons]
        rw [if_pos (by simpa using htoppos :
          decide (top.revision > 0) = true)]
      obtain ⟨n, hn⟩ : ∃ n, st.maxRevisions = n + 1 :=
        ⟨st.maxRevisions - 1, by omega⟩
      have htopkeep : top.revision ∈ (((((GetAllRevisions st.db path svc).filter (fun (r : FileRow) => decide (r.revision > 0)))).take
          st.maxRevisions).map (fun r => r.revision)) := by
        rw [holdcons, hn, List.take_succ_cons]
        exact List.mem_map.mpr ⟨top, by simp, rfl⟩
      have hxdel : x.revision ∈ (((((GetAllRevisions st.db path svc).filter (fun (r : FileRow) => decide (r.revision > 0))).drop st.maxRevisions)).map (fun r => r.revision)) :=
        List.mem_map.mpr ⟨x, hx, rfl⟩
      have hnodup2 := hnodupOld
      rw [← List.take_append_drop st.maxRevisions ((GetAllRevisions st.db path svc).filter (fun (r : FileRow) => decide (r.revision > 0))),
        List.map_append, List.nodup_append] at hnodup2
      exact hnodup2.2.2 htopkeep (hrev ▸ hxdel)
    · -- other paths survive
      intro r hr hnk
      rw [hdb, List.mem_filter]
      refine ⟨hr, ?_⟩
      simp only [decide_eq_true_eq]
      rintro ⟨x, hx, hkeq⟩
      have h1 : r.path = path := congrArg (fun t => t.1) hkeq
      have h2 : r.service = svc := congrArg (fun t => t.2.1) hkeq
      exact hnk ⟨h1, h2⟩
    · -- the revision-0 row survives
      intro r hr h0
      rw [hdb, List.mem_filter]
      refine ⟨hr, ?_⟩
      simp only [decide_eq_true_eq]
      rintro ⟨x, hx, hkeq⟩
      have hrev : r.revision = x.revision :=
        congrArg (fun t => t.2.2) hkeq
      have hxpos := (hdelkey x hx).2
      omega
    · -- deleted rows are this path rows with the lowest positive revisions
      intro r hr hnot
      rw [hdb] at hnot
      have hnp : ¬ (((fun (q : FileRow) => decide (¬ ∃ x ∈ (((GetAllRevisions st.db path svc).filter (fun (r : FileRow) => decide (r.revision > 0))).drop st.maxRevisions), rowKey q = (path, svc, x.revision)))) r = true) := fun hp =>
        hnot (List.mem_filter.mpr ⟨hr, hp⟩)
      simp only [decide_eq_true_eq, not_not] at hnp
      obtain ⟨x, hx, hkeq⟩ := hnp
      have h1 : r.path = path := congrArg (fun t => t.1) hkeq
      have h2 : r.service = svc := congrArg (fun t => t.2.1) hkeq
      have h3 : r.revision = x.revision := congrArg (fun t => t.2.2) hkeq
      have hxpos := (hdelkey x hx).2
      refine ⟨h1, h2, by omega, ?_⟩
      intro q hq hqpos
      rw [hdb] at hq
      simp only [rowsFor, List.filter_filter, List.mem_filter,
        Bool.and_eq_true, decide_eq_true_eq] at hq
      have hqF : q ∈ (rowsFor st.db path svc) := by
        simp only [rowsFor, List.mem_filter, decide_eq_true_eq]
        exact ⟨hq.1, hq.2.1⟩
      have hqold : q ∈ ((GetAllRevisions st.db path svc).filter (fun (r : FileRow) => decide (r.revision > 0))) :=
        List.mem_filter.mpr ⟨hpermF.mem_iff.mpr hqF, by simpa using hqpos⟩
      rw [← List.take_append_drop st.maxRevisions ((GetAllRevisions st.db path svc).filter (fun (r : FileRow) => decide (r.revision > 0)))] at hqold
      have hqkeep : q ∈ (((GetAllRevisions st.db path svc).filter (fun (r : FileRow) => decide (r.revision > 0)))).take st.maxRevisions := by
        rcases List.mem_append.mp hqold with h | h
        · exact h
        · exact absurd ⟨q, h, hkeyOld q (List.mem_of_mem_drop h)⟩ hq.2.2
      have hpair2 := hpairOld
      rw [← List.take_append_drop st.maxRevisions ((GetAllRevisions st.db path svc).filter (fun (r : FileRow) => decide (r.revision > 0))),
        List.pairwise_append] at hpair2
      have hle : x.revision ≤ q.revision := hpair2.2.2 q hqkeep x hx
      have hne : ¬ x.revision = q.revision := by
        intro heq
        have hqm : q.revision ∈ (((((GetAllRevisions st.db path svc).filter (fun (r : FileRow) => decide (r.revision > 0)))).take st.maxRevisions).map
            (fun r => r.revision)) := List.mem_map.mpr ⟨q, hqkeep, rfl⟩
        have hxm : x.revision ∈ (((((GetAllRevisions st.db path svc).filter (fun (r : FileRow) => decide (r.revision > 0))).drop st.maxRevisions)).map (fun r => r.revision)) :=
          List.mem_map.mpr ⟨x, hx, rfl⟩
        have hnodup2 := hnodupOld
        rw [← List.take_append_drop st.maxRevisions ((GetAllRevisions st.db path svc).filter (fun (r : FileRow) => decide (r.revision > 0))),
          List.map_append, List.nodup_append] at hnodup2
        exact hnodup2.2.2 hqm (heq ▸ hxm)
      omega

/-- Witness: with `max_revisions = 1` and `a.txt` at revisions `{0, 1, 2}`,
`CleanupOldRevisions` leaves exactly one `revision > 0` row. -/
theorem C4_witness :
    ((rowsFor ({ fxStorage with
        maxRevisions := 1
        db := [fxRow0, fxRow1, { fxRow1 with revision := 2 }] } : Storage).db
        "a.txt" "Contemporary").map (fun r => r.revision)).Nodup ∧
    1 ≤ ({ fxStorage with
        maxRevisions := 1
        db := [fxRow0, fxRow1, { fxRow1 with revision := 2 }] } : Storage).maxRevisions ∧
    ((rowsFor (CleanupOldRevisions
        { fxStorage with
        maxRevisions := 1
        db := [fxRow0, fxRow1, { fxRow1 with revision := 2 }] }
        "a.txt" "Contemporary").db "a.txt" "Contemporary").filter
        (fun r => decide (r.revision > 0))).length ≤ 1 :=
  ⟨by decide, by decide,
    (C4_cleanup_caps_old_revisions
      { fxStorage with
        maxRevisions := 1
        db := [fxRow0, fxRow1, { fxRow1 with revision := 2 }] }
      "a.txt" "Contemporary" (by decide) (by decide)).1⟩
